import Mathlib

/-!
A shallow embedding of the super-happy-fuzz-time core: the grammar-driven
parser (src/libshft/src/parse.rs), the fuzz view with its mutation
catalogue (src/libshft/src/fuzz.rs), and the serializer with its two
sinks.  Bytes are modelled as natural numbers, byte slices as lists;
arena indices (`NodeRef`, `RangeRef`) are `Nat`.
-/

namespace Shft

/-- Byte strings are lists of bytes (one natural number per byte). -/
abbrev Bytes := List Nat

theorem getD_alt {α : Type} (l : List α) (n : Nat) (d : α) :
    l[n]?.getD d = l.getD n d :=
  (List.getD_eq_getElem?_getD l n d).symm

/-- grammar.rs: `GrammarDef` — one rule of the grammar.  The `parse.rs`
revision in the repository matches on a `Tokenizer` variant (whitespace
patterns, which emit themselves as token leaves), so the enum carries it. -/
inductive GrammarDef
  | Breaker (pattern : Bytes)
  | Delim (start_pattern end_pattern : Bytes)
  | Tokenizer (pattern : Bytes)
deriving DecidableEq

/-- grammar.rs: `Grammar` — the ordered rule list plus the whitespace list. -/
structure Grammar where
  defs : List GrammarDef
  whitespace : List Bytes
deriving DecidableEq

/-- Modelled from the spec: the grammar loader `Grammar::from_path`
composes the three configuration lists into the rule list.  The loader in
src/ predates the `Tokenizer` variant that the repository's `parse.rs`
scanner requires, so the composition is taken from the spec: delimiter
rules first, then whitespace patterns as tokenizer rules (tried before
non-whitespace breakers), then breakers, each list in its given order. -/
def grammarFromLists (delims : List (Bytes × Bytes)) (breaks whitespace : List Bytes) :
    Grammar :=
  { defs := delims.map (fun d => GrammarDef.Delim d.1 d.2) ++
      whitespace.map GrammarDef.Tokenizer ++ breaks.map GrammarDef.Breaker,
    whitespace := whitespace }

/-- parse.rs: `Match` — the event found by `scan_next`. -/
inductive Match
  | Break (token rest : Bytes)
  | Tokenizer (pre token rest : Bytes)
  | DelimStart (pre start_slice : Bytes) (end_pattern : Bytes) (rest : Bytes)
  | DelimEnd (pre end_slice rest : Bytes)
deriving DecidableEq

/-- parse.rs: the body of `scan_next`'s inner loop, trying one grammar rule
at position `i` of `buf`; `buf[i..]` is `buf.drop i` and `buf[..i]` is
`buf.take i`, and the matched slice `buf[i..i+len]` is
`(buf.drop i).take len`. -/
def scanDefAt (buf : Bytes) (i : Nat) : GrammarDef → Option Match
  | .Delim start_pattern end_pattern =>
      if start_pattern.isPrefixOf (buf.drop i) then
        some (.DelimStart (buf.take i) ((buf.drop i).take start_pattern.length)
          end_pattern ((buf.drop i).drop start_pattern.length))
      else if end_pattern.isPrefixOf (buf.drop i) then
        some (.DelimEnd (buf.take i) ((buf.drop i).take end_pattern.length)
          ((buf.drop i).drop end_pattern.length))
      else none
  | .Tokenizer pattern =>
      if pattern.isPrefixOf (buf.drop i) then
        some (.Tokenizer (buf.take i) ((buf.drop i).take pattern.length)
          ((buf.drop i).drop pattern.length))
      else none
  | .Breaker pattern =>
      if i ≠ 0 ∧ pattern.isPrefixOf (buf.drop i) then
        some (.Break (buf.take i) (buf.drop i))
      else none

/-- parse.rs: `scan_next` — positions in ascending order, rules in grammar
order at each position; the fall-through consumes the whole buffer. -/
def scan_next (g : Grammar) (buf : Bytes) : Match :=
  ((List.range buf.length).findSome? (fun i => g.defs.findSome? (scanDefAt buf i))).getD
    (.Break buf (buf.drop buf.length))

/-- parse.rs and fuzz.rs: `Node`.  In `parse.rs` a `Delim` node carries the
open slice, the child range index and the close slice; the `fuzz.rs`
revision bundles the two patterns as a `grammar::Delim` value — the same
three data. -/
inductive Node
  | Delim (start_pattern : Bytes) (rangeref : Nat) (end_pattern : Bytes)
  | Range (rangeref : Nat)
  | Token (token : Bytes)
deriving DecidableEq

/-- parse.rs: `ParsedFile`. -/
structure ParsedFile where
  root : List Nat
  nodes : List Node
  ranges : List (List Nat)
deriving DecidableEq

/-- parse.rs: `SlurpState` — one open-delimiter stack frame. -/
structure SlurpState where
  start_pattern : Bytes
  end_pattern : Bytes
  range : List Nat
deriving DecidableEq

/-- parse.rs: `TreeBuilder`.  The frame stack is kept head-first: the head
of `stack` is the top of the Rust `Vec` (its last element). -/
structure TreeBuilder where
  root : List Nat
  nodes : List Node
  ranges : List (List Nat)
  stack : List SlurpState
deriving DecidableEq

/-- parse.rs: `TreeBuilder::new`. -/
def TreeBuilder.new : TreeBuilder := ⟨[], [], [], []⟩

/-- parse.rs: `TreeBuilder::add_node_ref` — attach a node to the top frame,
or to the root when the stack is empty. -/
def TreeBuilder.add_node_ref (b : TreeBuilder) (noderef : Nat) : TreeBuilder :=
  match b.stack with
  | [] => { b with root := b.root ++ [noderef] }
  | f :: fs => { b with stack := { f with range := f.range ++ [noderef] } :: fs }

/-- parse.rs: `TreeBuilder::push_node` — append a node and return its index. -/
def TreeBuilder.push_node (b : TreeBuilder) (node : Node) : TreeBuilder × Nat :=
  ({ b with nodes := b.nodes ++ [node] }, b.nodes.length)

/-- parse.rs: `TreeBuilder::push_token` — empty tokens are dropped;
non-empty ones become `Token` leaves attached to the top frame or root. -/
def TreeBuilder.push_token (b : TreeBuilder) (buf : Bytes) : TreeBuilder :=
  if buf.isEmpty then b
  else
    let p := b.push_node (.Token buf)
    p.1.add_node_ref p.2

/-- parse.rs: `TreeBuilder::push_range` — append a range and return its index. -/
def TreeBuilder.push_range (b : TreeBuilder) (range : List Nat) : TreeBuilder × Nat :=
  ({ b with ranges := b.ranges ++ [range] }, b.ranges.length)

/-- parse.rs: `TreeBuilder::start_recurse` — push a fresh frame. -/
def TreeBuilder.start_recurse (b : TreeBuilder) (start_pattern end_pattern : Bytes) :
    TreeBuilder :=
  { b with stack := ⟨start_pattern, end_pattern, []⟩ :: b.stack }

/-- parse.rs: `TreeBuilder::state_with_end_pattern` — pop the top frame iff
its expected close pattern equals the matched one. -/
def TreeBuilder.state_with_end_pattern (b : TreeBuilder) (end_pattern : Bytes) :
    Option (SlurpState × TreeBuilder) :=
  match b.stack with
  | [] => none
  | f :: fs =>
      if f.end_pattern = end_pattern then some (f, { b with stack := fs }) else none

/-- parse.rs: `TreeBuilder::end_recurse` — on a pop, install the child
range and a `Delim` node; otherwise the close pattern is a plain token. -/
def TreeBuilder.end_recurse (b : TreeBuilder) (end_pattern : Bytes) : TreeBuilder :=
  match b.state_with_end_pattern end_pattern with
  | some st =>
      let p := st.2.push_range st.1.range
      let q := p.1.push_node (.Delim st.1.start_pattern p.2 end_pattern)
      q.1.add_node_ref q.2
  | none => b.push_token end_pattern

/-- parse.rs: the `for noderef in &state.range` loop inside `finish`. -/
def TreeBuilder.add_node_refs (b : TreeBuilder) (l : List Nat) : TreeBuilder :=
  l.foldl TreeBuilder.add_node_ref b

/-- parse.rs: the `while let Some(state) = self.stack.pop()` loop of
`finish`, with one unit of fuel per popped frame. -/
def TreeBuilder.finishFuel : Nat → TreeBuilder → TreeBuilder
  | 0, b => b
  | n+1, b =>
      match b.stack with
      | [] => b
      | f :: fs =>
          TreeBuilder.finishFuel n
            ((({ b with stack := fs }).push_token f.start_pattern).add_node_refs f.range)

/-- parse.rs: `TreeBuilder::finish` — each iteration pops exactly one
frame, so `stack.length` units of fuel replay the whole loop. -/
def TreeBuilder.finish (b : TreeBuilder) : TreeBuilder :=
  TreeBuilder.finishFuel b.stack.length b

/-- parse.rs: the `while !remainder.is_empty()` loop of `slurp`, with
explicit fuel (one unit per scan event); `none` means the fuel ran out
before the input was consumed. -/
def slurpF (g : Grammar) : Nat → Bytes → TreeBuilder → Option TreeBuilder
  | 0, remainder, b => if remainder.isEmpty then some b else none
  | fuel+1, remainder, b =>
      if remainder.isEmpty then some b
      else
        match scan_next g remainder with
        | .Tokenizer pre token rest =>
            slurpF g fuel rest ((b.push_token pre).push_token token)
        | .DelimStart pre start_slice end_pattern rest =>
            slurpF g fuel rest ((b.push_token pre).start_recurse start_slice end_pattern)
        | .DelimEnd pre end_slice rest =>
            slurpF g fuel rest ((b.push_token pre).end_recurse end_slice)
        | .Break token rest =>
            slurpF g fuel rest (b.push_token token)

/-- parse.rs: `slurp` with explicit fuel for the scan loop. -/
def slurpWith (g : Grammar) (buf : Bytes) (fuel : Nat) : Option ParsedFile :=
  (slurpF g fuel buf TreeBuilder.new).map (fun b =>
    let b2 := b.finish
    ⟨b2.root, b2.nodes, b2.ranges⟩)

/-- parse.rs: `slurp`.  Every scan event consumes at least one byte
whenever the grammar's delimiter and tokenizer patterns are non-empty, so
`buf.length + 1` fuel replays every run the Rust loop finishes. -/
def slurp (g : Grammar) (buf : Bytes) : Option ParsedFile :=
  slurpWith g buf (buf.length + 1)

/-- The scan loop of `slurp` never reaches the end of the input: there is
a fixed point the scanner can never leave.  Used to witness diverging runs. -/
def slurpDiverges (g : Grammar) (buf : Bytes) : Prop :=
  ∀ fuel, slurpF g fuel buf TreeBuilder.new = none

/-- fuzz.rs: `FuzzFile` — the copy-on-write view over a `ParsedFile`,
with the three `Cow` handles flattened to the arena values they denote
(materializing an owned copy does not change the denoted value). -/
structure FuzzFile where
  root : List Nat
  nodes : List Node
  ranges : List (List Nat)
deriving DecidableEq

/-- fuzz.rs: `FuzzFile::new` — the borrowed view of a `ParsedFile`. -/
def FuzzFile.new (parsed : ParsedFile) : FuzzFile :=
  ⟨parsed.root, parsed.nodes, parsed.ranges⟩

/-- fuzz.rs: the `SerializeInto` trait — a sink accepting byte strings. -/
class SerializeInto (S : Type) where
  push : S → Bytes → S

/-- fuzz.rs: `impl SerializeInto for Vec<u8>` — the growable sink appends. -/
instance : SerializeInto Bytes where
  push out token := out ++ token

/-- fuzz.rs: `SliceSerializer` — the fixed-capacity sink over a slice. -/
structure SliceSerializer where
  slice : Bytes
  cur_offset : Nat
deriving DecidableEq

/-- fuzz.rs: `SliceSerializer::new`. -/
def SliceSerializer.new (slice : Bytes) : SliceSerializer := ⟨slice, 0⟩

/-- fuzz.rs: `SliceSerializer::bytes_written`. -/
def SliceSerializer.bytes_written (s : SliceSerializer) : Nat := s.cur_offset

/-- fuzz.rs: `impl SerializeInto for SliceSerializer` — copy as many bytes
as still fit into the slice, silently dropping the rest. -/
instance : SerializeInto SliceSerializer where
  push s token :=
    let remaining := s.slice.length - s.cur_offset
    let num_bytes_to_write := min remaining token.length
    if num_bytes_to_write > 0 then
      ⟨s.slice.take s.cur_offset ++ token.take num_bytes_to_write ++
        s.slice.drop (s.cur_offset + num_bytes_to_write),
        s.cur_offset + num_bytes_to_write⟩
    else s

/-- The free sink: records the sequence of pushed byte strings.  The
serializer's control flow never consults the sink, so every sink's result
is the fold of its `push` over this trace (proved below). -/
instance : SerializeInto (List Bytes) where
  push out token := out ++ [token]

/-- fuzz.rs: `SerializeState` — the `have_serialized_range` vector.  The
set-on-entry (`should_serialize`) and clear-on-exit (`reset`) discipline
makes the vector hold exactly the ranges on the active expansion path, so
the embedding passes the updated vector down into the recursion and keeps
the original for the continuation. -/
abbrev SerializeState := List Bool

/-- fuzz.rs: `SerializeState::new` — one `false` per range. -/
def SerializeState.new (ranges : List (List Nat)) : SerializeState :=
  ranges.map (fun _ => false)

/-- The number of ranges not yet on the active expansion path: the
termination measure of the serializer. -/
def unseenCount (seen : SerializeState) : Nat := seen.countP (fun b => !b)

theorem unseenCount_set_lt (seen : List Bool) (r : Nat) (h1 : r < seen.length)
    (h2 : seen.getD r false = false) : unseenCount (seen.set r true) < unseenCount seen := by
  induction seen generalizing r with
  | nil => simp at h1
  | cons b bs ih =>
      cases r with
      | zero =>
          simp only [List.getD, List.get?, Option.getD_some] at h2
          subst h2
          simp [unseenCount, List.countP_cons]
      | succ r =>
          simp only [List.length_cons, Nat.succ_lt_succ_iff] at h1
          simp only [List.getD_cons_succ] at h2
          have := ih r h1 h2
          simp only [unseenCount, List.countP_cons] at this ⊢
          simp only [List.set_cons_succ, List.countP_cons]
          omega

mutual

/-- fuzz.rs: `FuzzFile::serialize_noderef`, on its non-aborting
executions.  The source indexes `self.nodes[noderef]` and
`have_serialized_range[rangeref]`, panics when either is out of bounds;
the bound check below matches the source's guarded control flow on every
run that returns, and `serialize_noderefP` below models the aborts
themselves: `serializeP_factor` proves the panic-faithful serializer is
`some` of this one exactly when no abort occurs. -/
def FuzzFile.serialize_noderef {S : Type} [SerializeInto S] (ff : FuzzFile)
    (seen : SerializeState) (noderef : Nat) (out : S) : S :=
  match ff.nodes.getD noderef (.Token []) with
  | .Delim start_pattern rangeref end_pattern =>
      let out1 := SerializeInto.push out start_pattern
      let out2 :=
        if h : rangeref < seen.length ∧ seen.getD rangeref false = false then
          FuzzFile.serialize_list ff (seen.set rangeref true) (ff.ranges.getD rangeref []) out1
        else out1
      SerializeInto.push out2 end_pattern
  | .Range rangeref =>
      if h : rangeref < seen.length ∧ seen.getD rangeref false = false then
        FuzzFile.serialize_list ff (seen.set rangeref true) (ff.ranges.getD rangeref []) out
      else out
  | .Token token => SerializeInto.push out token
termination_by (unseenCount seen, 0)
decreasing_by
  all_goals exact Prod.Lex.left _ _ (unseenCount_set_lt seen _ h.1 h.2)

/-- fuzz.rs: the `for noderef in &self.ranges[rangeref]` loops inside
`serialize_noderef`, and the root loop of `serialize`. -/
def FuzzFile.serialize_list {S : Type} [SerializeInto S] (ff : FuzzFile)
    (seen : SerializeState) (l : List Nat) (out : S) : S :=
  match l with
  | [] => out
  | n :: ns => FuzzFile.serialize_list ff seen ns (FuzzFile.serialize_noderef ff seen n out)
termination_by (unseenCount seen, l.length + 1)
decreasing_by
  · exact Prod.Lex.right _ (by simp only [List.length_cons]; omega)
  · exact Prod.Lex.right _ (by simp only [List.length_cons]; omega)

end

/-- fuzz.rs: `FuzzFile::serialize`. -/
def FuzzFile.serialize {S : Type} [SerializeInto S] (ff : FuzzFile) (out : S) : S :=
  FuzzFile.serialize_list ff (SerializeState.new ff.ranges) ff.root out

/-- Fuel-indexed form of `serialize_noderef`: one unit of fuel per nesting
level of range expansion; `none` reports fuel exhaustion.  Structural in
the fuel, so it evaluates by kernel reduction. -/
def FuzzFile.serialize_noderefF {S : Type} [SerializeInto S] (ff : FuzzFile) :
    Nat → SerializeState → Nat → S → Option S
  | 0, _, _, _ => none
  | fuel+1, seen, noderef, out =>
      match ff.nodes.getD noderef (.Token []) with
      | .Delim start_pattern rangeref end_pattern =>
          let out1 := SerializeInto.push out start_pattern
          let step :=
            if rangeref < seen.length ∧ seen.getD rangeref false = false then
              (ff.ranges.getD rangeref []).foldlM
                (fun acc n => FuzzFile.serialize_noderefF ff fuel (seen.set rangeref true) n acc)
                out1
            else some out1
          step.map (fun out2 => SerializeInto.push out2 end_pattern)
      | .Range rangeref =>
          if rangeref < seen.length ∧ seen.getD rangeref false = false then
            (ff.ranges.getD rangeref []).foldlM
              (fun acc n => FuzzFile.serialize_noderefF ff fuel (seen.set rangeref true) n acc)
              out
          else some out
      | .Token token => some (SerializeInto.push out token)

/-- Fuel-indexed form of `serialize`. -/
def FuzzFile.serializeF {S : Type} [SerializeInto S] (ff : FuzzFile) (fuel : Nat) (out : S) :
    Option S :=
  ff.root.foldlM
    (fun acc n => FuzzFile.serialize_noderefF ff fuel (SerializeState.new ff.ranges) n acc) out

/-- Guard-free serialization of a parser-produced node, with fuel: the
parser creates every child of a node before the node itself, so child
indices strictly decrease and `noderef + 1` fuel suffices there. -/
def pureSerF (nodes : List Node) (ranges : List (List Nat)) : Nat → Nat → Bytes
  | 0, _ => []
  | fuel+1, noderef =>
      match nodes.getD noderef (.Token []) with
      | .Delim s r e =>
          s ++ ((ranges.getD r []).map (pureSerF nodes ranges fuel)).flatten ++ e
      | .Range r => ((ranges.getD r []).map (pureSerF nodes ranges fuel)).flatten
      | .Token t => t

/-- Guard-free serialization of one parser-produced node. -/
def pureSer (nodes : List Node) (ranges : List (List Nat)) (noderef : Nat) : Bytes :=
  pureSerF nodes ranges (noderef + 1) noderef

/-- Guard-free serialization of a sequence of parser-produced nodes. -/
def pureSerList (nodes : List Node) (ranges : List (List Nat)) (l : List Nat) : Bytes :=
  (l.map (pureSer nodes ranges)).flatten

/-- The serialization of a `FuzzFile` into the growable sink, from empty —
what the fuzz driver emits for one variant. -/
def serializeVec (ff : FuzzFile) : Bytes :=
  FuzzFile.serialize ff ([] : Bytes)

/-- The serialization of a `FuzzFile` into the fixed-capacity sink over
`slice` — what the harness driver uses for its caller-provided buffer. -/
def serializeSlice (ff : FuzzFile) (slice : Bytes) : SliceSerializer :=
  FuzzFile.serialize ff (SliceSerializer.new slice)

mutual

/-- fuzz.rs: `FuzzFile::serialize_noderef`, panic-faithfully: `none`
models the aborts of the source — `self.nodes[noderef]` with an
out-of-bounds noderef, and `self.have_serialized_range[rangeref]` (inside
`should_serialize`) with an out-of-bounds rangeref.  On every in-bounds
reference it performs exactly the pushes of `serialize_noderef`;
`serializeP_factor` below proves that it returns `some` of
`serialize_noderef`'s result exactly on the non-aborting executions, so
the total form above is the source restricted to the runs that return. -/
def FuzzFile.serialize_noderefP {S : Type} [SerializeInto S] (ff : FuzzFile)
    (seen : SerializeState) (noderef : Nat) (out : S) : Option S :=
  match ff.nodes.get? noderef with
  | none => none
  | some (.Delim start_pattern rangeref end_pattern) =>
      let out1 := SerializeInto.push out start_pattern
      if h : rangeref < seen.length ∧ seen.getD rangeref false = false then
        (FuzzFile.serialize_listP ff (seen.set rangeref true)
          (ff.ranges.getD rangeref []) out1).map
          (fun out2 => SerializeInto.push out2 end_pattern)
      else if rangeref < seen.length then
        some (SerializeInto.push out1 end_pattern)
      else none
  | some (.Range rangeref) =>
      if h : rangeref < seen.length ∧ seen.getD rangeref false = false then
        FuzzFile.serialize_listP ff (seen.set rangeref true)
          (ff.ranges.getD rangeref []) out
      else if rangeref < seen.length then some out
      else none
  | some (.Token token) => some (SerializeInto.push out token)
termination_by (unseenCount seen, 0)
decreasing_by
  all_goals exact Prod.Lex.left _ _ (unseenCount_set_lt seen _ h.1 h.2)

/-- The loops of `serialize_noderef` and `serialize`, panic-faithfully: an
abort at any element aborts the whole loop. -/
def FuzzFile.serialize_listP {S : Type} [SerializeInto S] (ff : FuzzFile)
    (seen : SerializeState) (l : List Nat) (out : S) : Option S :=
  match l with
  | [] => some out
  | n :: ns =>
      match FuzzFile.serialize_noderefP ff seen n out with
      | some out2 => FuzzFile.serialize_listP ff seen ns out2
      | none => none
termination_by (unseenCount seen, l.length + 1)
decreasing_by
  · exact Prod.Lex.right _ (by simp only [List.length_cons]; omega)
  · exact Prod.Lex.right _ (by simp only [List.length_cons]; omega)

end

/-- fuzz.rs: `FuzzFile::serialize`, panic-faithfully. -/
def FuzzFile.serializeP {S : Type} [SerializeInto S] (ff : FuzzFile) (out : S) :
    Option S :=
  FuzzFile.serialize_listP ff (SerializeState.new ff.ranges) ff.root out

mutual

/-- Does `serialize_noderef` on this node complete without aborting?  The
serializer's control flow never reads the sink, so this predicate over
the arenas and the seen vector alone decides it for every sink. -/
def FuzzFile.serialize_ok (ff : FuzzFile) (seen : SerializeState) (noderef : Nat) :
    Bool :=
  match ff.nodes.get? noderef with
  | none => false
  | some (.Delim _ rangeref _) =>
      if h : rangeref < seen.length ∧ seen.getD rangeref false = false then
        FuzzFile.serialize_list_ok ff (seen.set rangeref true)
          (ff.ranges.getD rangeref [])
      else decide (rangeref < seen.length)
  | some (.Range rangeref) =>
      if h : rangeref < seen.length ∧ seen.getD rangeref false = false then
        FuzzFile.serialize_list_ok ff (seen.set rangeref true)
          (ff.ranges.getD rangeref [])
      else decide (rangeref < seen.length)
  | some (.Token _) => true
termination_by (unseenCount seen, 0)
decreasing_by
  all_goals exact Prod.Lex.left _ _ (unseenCount_set_lt seen _ h.1 h.2)

/-- Does the node loop complete without aborting? -/
def FuzzFile.serialize_list_ok (ff : FuzzFile) (seen : SerializeState) (l : List Nat) :
    Bool :=
  match l with
  | [] => true
  | n :: ns => FuzzFile.serialize_ok ff seen n && FuzzFile.serialize_list_ok ff seen ns
termination_by (unseenCount seen, l.length + 1)
decreasing_by
  · exact Prod.Lex.right _ (by simp only [List.length_cons]; omega)
  · exact Prod.Lex.right _ (by simp only [List.length_cons]; omega)

end

/-- Does `serialize` complete without aborting? -/
def FuzzFile.serialize_root_ok (ff : FuzzFile) : Bool :=
  FuzzFile.serialize_list_ok ff (SerializeState.new ff.ranges) ff.root

theorem push_vec (out t : Bytes) : SerializeInto.push out t = out ++ t := rfl

theorem push_trace (out : List Bytes) (t : Bytes) : SerializeInto.push out t = out ++ [t] := rfl

theorem push_slice (s : SliceSerializer) (t : Bytes) :
    SerializeInto.push s t =
      (let remaining := s.slice.length - s.cur_offset
       let num_bytes_to_write := min remaining t.length
       if num_bytes_to_write > 0 then
         ⟨s.slice.take s.cur_offset ++ t.take num_bytes_to_write ++
           s.slice.drop (s.cur_offset + num_bytes_to_write),
           s.cur_offset + num_bytes_to_write⟩
       else s) := rfl

theorem serialize_list_nil {S : Type} [SerializeInto S] (ff : FuzzFile)
    (seen : SerializeState) (out : S) :
    FuzzFile.serialize_list ff seen [] out = out := by
  rw [FuzzFile.serialize_list]

theorem serialize_list_cons {S : Type} [SerializeInto S] (ff : FuzzFile)
    (seen : SerializeState) (n : Nat) (ns : List Nat) (out : S) :
    FuzzFile.serialize_list ff seen (n :: ns) out =
      FuzzFile.serialize_list ff seen ns (FuzzFile.serialize_noderef ff seen n out) := by
  rw [FuzzFile.serialize_list]

theorem serialize_noderef_token {S : Type} [SerializeInto S] (ff : FuzzFile)
    (seen : SerializeState) (n : Nat) (out : S) (t : Bytes)
    (h : ff.nodes.getD n (.Token []) = .Token t) :
    FuzzFile.serialize_noderef ff seen n out = SerializeInto.push out t := by
  rw [FuzzFile.serialize_noderef, h]

theorem serialize_noderef_range {S : Type} [SerializeInto S] (ff : FuzzFile)
    (seen : SerializeState) (n : Nat) (out : S) (r : Nat)
    (h : ff.nodes.getD n (.Token []) = .Range r) :
    FuzzFile.serialize_noderef ff seen n out =
      (if r < seen.length ∧ seen.getD r false = false then
        FuzzFile.serialize_list ff (seen.set r true) (ff.ranges.getD r []) out
      else out) := by
  rw [FuzzFile.serialize_noderef, h]
  simp

theorem serialize_noderef_delim {S : Type} [SerializeInto S] (ff : FuzzFile)
    (seen : SerializeState) (n : Nat) (out : S) (s : Bytes) (r : Nat) (e : Bytes)
    (h : ff.nodes.getD n (.Token []) = .Delim s r e) :
    FuzzFile.serialize_noderef ff seen n out =
      SerializeInto.push
        (if r < seen.length ∧ seen.getD r false = false then
          FuzzFile.serialize_list ff (seen.set r true) (ff.ranges.getD r [])
            (SerializeInto.push out s)
        else SerializeInto.push out s) e := by
  rw [FuzzFile.serialize_noderef, h]
  simp

theorem getD_of_get? {α : Type} (l : List α) (n : Nat) (d x : α)
    (h : l.get? n = some x) : l.getD n d = x := by
  rw [List.getD_eq_getElem?_getD, ← List.get?_eq_getElem?, h]
  rfl

theorem serialize_listP_nil {S : Type} [SerializeInto S] (ff : FuzzFile)
    (seen : SerializeState) (out : S) :
    FuzzFile.serialize_listP ff seen [] out = some out := by
  rw [FuzzFile.serialize_listP]

theorem serialize_listP_cons {S : Type} [SerializeInto S] (ff : FuzzFile)
    (seen : SerializeState) (n : Nat) (ns : List Nat) (out : S) :
    FuzzFile.serialize_listP ff seen (n :: ns) out =
      (FuzzFile.serialize_noderefP ff seen n out).bind
        (FuzzFile.serialize_listP ff seen ns) := by
  rw [FuzzFile.serialize_listP]
  cases FuzzFile.serialize_noderefP ff seen n out <;> rfl

theorem serialize_noderefP_nf {S : Type} [SerializeInto S] (ff : FuzzFile)
    (seen : SerializeState) (n : Nat) (out : S)
    (h : ff.nodes.get? n = none) :
    FuzzFile.serialize_noderefP ff seen n out = none := by
  rw [FuzzFile.serialize_noderefP, h]

theorem serialize_noderefP_token {S : Type} [SerializeInto S] (ff : FuzzFile)
    (seen : SerializeState) (n : Nat) (out : S) (t : Bytes)
    (h : ff.nodes.get? n = some (.Token t)) :
    FuzzFile.serialize_noderefP ff seen n out = some (SerializeInto.push out t) := by
  rw [FuzzFile.serialize_noderefP, h]

theorem serialize_noderefP_range {S : Type} [SerializeInto S] (ff : FuzzFile)
    (seen : SerializeState) (n : Nat) (out : S) (r : Nat)
    (h : ff.nodes.get? n = some (.Range r)) :
    FuzzFile.serialize_noderefP ff seen n out =
      (if r < seen.length ∧ seen.getD r false = false then
        FuzzFile.serialize_listP ff (seen.set r true) (ff.ranges.getD r []) out
      else if r < seen.length then some out
      else none) := by
  rw [FuzzFile.serialize_noderefP, h]
  simp

theorem serialize_noderefP_delim {S : Type} [SerializeInto S] (ff : FuzzFile)
    (seen : SerializeState) (n : Nat) (out : S) (s : Bytes) (r : Nat) (e : Bytes)
    (h : ff.nodes.get? n = some (.Delim s r e)) :
    FuzzFile.serialize_noderefP ff seen n out =
      (if r < seen.length ∧ seen.getD r false = false then
        (FuzzFile.serialize_listP ff (seen.set r true) (ff.ranges.getD r [])
          (SerializeInto.push out s)).map
          (fun out2 => SerializeInto.push out2 e)
      else if r < seen.length then
        some (SerializeInto.push (SerializeInto.push out s) e)
      else none) := by
  rw [FuzzFile.serialize_noderefP, h]
  simp

theorem serialize_list_ok_nil (ff : FuzzFile) (seen : SerializeState) :
    FuzzFile.serialize_list_ok ff seen [] = true := by
  rw [FuzzFile.serialize_list_ok]

theorem serialize_list_ok_cons (ff : FuzzFile) (seen : SerializeState)
    (n : Nat) (ns : List Nat) :
    FuzzFile.serialize_list_ok ff seen (n :: ns) =
      (FuzzFile.serialize_ok ff seen n && FuzzFile.serialize_list_ok ff seen ns) := by
  rw [FuzzFile.serialize_list_ok]

theorem serialize_ok_nf (ff : FuzzFile) (seen : SerializeState) (n : Nat)
    (h : ff.nodes.get? n = none) : FuzzFile.serialize_ok ff seen n = false := by
  rw [FuzzFile.serialize_ok, h]

theorem serialize_ok_token (ff : FuzzFile) (seen : SerializeState) (n : Nat) (t : Bytes)
    (h : ff.nodes.get? n = some (.Token t)) :
    FuzzFile.serialize_ok ff seen n = true := by
  rw [FuzzFile.serialize_ok, h]

theorem serialize_ok_range (ff : FuzzFile) (seen : SerializeState) (n : Nat) (r : Nat)
    (h : ff.nodes.get? n = some (.Range r)) :
    FuzzFile.serialize_ok ff seen n =
      (if r < seen.length ∧ seen.getD r false = false then
        FuzzFile.serialize_list_ok ff (seen.set r true) (ff.ranges.getD r [])
      else decide (r < seen.length)) := by
  rw [FuzzFile.serialize_ok, h]
  simp

theorem serialize_ok_delim (ff : FuzzFile) (seen : SerializeState) (n : Nat)
    (s : Bytes) (r : Nat) (e : Bytes)
    (h : ff.nodes.get? n = some (.Delim s r e)) :
    FuzzFile.serialize_ok ff seen n =
      (if r < seen.length ∧ seen.getD r false = false then
        FuzzFile.serialize_list_ok ff (seen.set r true) (ff.ranges.getD r [])
      else decide (r < seen.length)) := by
  rw [FuzzFile.serialize_ok, h]
  simp

/-- The panic-aware serializer succeeds exactly when `serialize_ok` holds,
and then computes exactly what the non-aborting serializer computes. -/
theorem serializeP_factor_aux (k : Nat) : ∀ (ff : FuzzFile) (seen : SerializeState),
    unseenCount seen = k →
      (∀ (n : Nat) {S : Type} [SerializeInto S] (out : S),
        FuzzFile.serialize_noderefP ff seen n out =
          if FuzzFile.serialize_ok ff seen n then
            some (FuzzFile.serialize_noderef ff seen n out)
          else none) ∧
      (∀ (l : List Nat) {S : Type} [SerializeInto S] (out : S),
        FuzzFile.serialize_listP ff seen l out =
          if FuzzFile.serialize_list_ok ff seen l then
            some (FuzzFile.serialize_list ff seen l out)
          else none) := by
  induction k using Nat.strong_induction_on with
  | _ k ih =>
    intro ff seen hk
    have hnode : ∀ (n : Nat) {S : Type} [SerializeInto S] (out : S),
        FuzzFile.serialize_noderefP ff seen n out =
          if FuzzFile.serialize_ok ff seen n then
            some (FuzzFile.serialize_noderef ff seen n out)
          else none := by
      intro n S inst out
      cases hget : ff.nodes.get? n with
      | none =>
          rw [serialize_noderefP_nf ff seen n out hget, serialize_ok_nf ff seen n hget]
          rfl
      | some nd =>
          have hgd : ff.nodes.getD n (.Token []) = nd :=
            getD_of_get? ff.nodes n (.Token []) nd hget
          cases nd with
          | Token t =>
              rw [serialize_noderefP_token ff seen n out t hget,
                serialize_ok_token ff seen n t hget,
                serialize_noderef_token ff seen n out t hgd]
              rfl
          | Range r =>
              rw [serialize_noderefP_range ff seen n out r hget,
                serialize_ok_range ff seen n r hget,
                serialize_noderef_range ff seen n out r hgd]
              by_cases hg : r < seen.length ∧ seen.getD r false = false
              · simp only [if_pos hg]
                have hlt : unseenCount (seen.set r true) < k :=
                  hk ▸ unseenCount_set_lt seen r hg.1 hg.2
                exact (ih _ hlt ff (seen.set r true) rfl).2 (ff.ranges.getD r []) out
              · simp only [if_neg hg]
                by_cases hr : r < seen.length
                · simp [hr]
                · simp [hr]
          | Delim s r e =>
              rw [serialize_noderefP_delim ff seen n out s r e hget,
                serialize_ok_delim ff seen n s r e hget,
                serialize_noderef_delim ff seen n out s r e hgd]
              by_cases hg : r < seen.length ∧ seen.getD r false = false
              · simp only [if_pos hg]
                have hlt : unseenCount (seen.set r true) < k :=
                  hk ▸ unseenCount_set_lt seen r hg.1 hg.2
                rw [(ih _ hlt ff (seen.set r true) rfl).2 (ff.ranges.getD r [])
                  (SerializeInto.push out s)]
                by_cases hlo : FuzzFile.serialize_list_ok ff (seen.set r true)
                    (ff.ranges.getD r []) = true
                · simp only [if_pos hlo]
                  rfl
                · simp only [if_neg hlo]
                  rfl
              · simp only [if_neg hg]
                by_cases hr : r < seen.length
                · simp [hr]
                · simp [hr]
    refine ⟨hnode, ?_⟩
    intro l
    induction l with
    | nil =>
        intro S inst out
        rw [serialize_listP_nil, serialize_list_ok_nil, if_pos rfl, serialize_list_nil]
    | cons n ns ihl =>
        intro S inst out
        rw [serialize_listP_cons, serialize_list_ok_cons, serialize_list_cons,
          hnode n (S := S) out]
        by_cases hok : FuzzFile.serialize_ok ff seen n = true
        · rw [if_pos hok, Option.some_bind, ihl (S := S)]
          by_cases hlo : FuzzFile.serialize_list_ok ff seen ns = true
          · simp [hok, hlo]
          · have hlo2 : FuzzFile.serialize_list_ok ff seen ns = false :=
              Bool.eq_false_iff.mpr hlo
            simp [hok, hlo2]
        · have hok2 : FuzzFile.serialize_ok ff seen n = false :=
            Bool.eq_false_iff.mpr hok
          rw [if_neg hok, Option.none_bind]
          simp [hok2]

/-- `serializeP` is `serialize` on the runs that complete, `none` (the
abort) otherwise; completion is decided by `serialize_root_ok`, which is
independent of the sink. -/
theorem serializeP_factor {S : Type} [SerializeInto S] (ff : FuzzFile) (out : S) :
    FuzzFile.serializeP ff out =
      if FuzzFile.serialize_root_ok ff then some (FuzzFile.serialize ff out)
      else none :=
  (serializeP_factor_aux (unseenCount (SerializeState.new ff.ranges)) ff _ rfl).2
    ff.root out

theorem foldl_push_trace (l : List Bytes) : ∀ acc : List Bytes,
    l.foldl SerializeInto.push acc = acc ++ l := by
  induction l with
  | nil => simp
  | cons x xs ih => intro acc; simp [push_trace, ih]

/-- The serializer interacts with its sink only through `push`, and its
control flow never reads the sink: serializing into any sink is the fold
of that sink's `push` over the trace recorded by the free sink. -/
theorem serialize_trace (k : Nat) : ∀ (ff : FuzzFile) (seen : SerializeState),
    unseenCount seen = k →
      (∀ (n : Nat) {S : Type} [SerializeInto S] (out : S),
        FuzzFile.serialize_noderef ff seen n out =
          (FuzzFile.serialize_noderef ff (S := List Bytes) seen n []).foldl
            SerializeInto.push out) ∧
      (∀ (l : List Nat) {S : Type} [SerializeInto S] (out : S),
        FuzzFile.serialize_list ff seen l out =
          (FuzzFile.serialize_list ff (S := List Bytes) seen l []).foldl
            SerializeInto.push out) := by
  induction k using Nat.strong_induction_on with
  | _ k ih =>
    intro ff seen hk
    have hnode : ∀ (n : Nat) {S : Type} [SerializeInto S] (out : S),
        FuzzFile.serialize_noderef ff seen n out =
          (FuzzFile.serialize_noderef ff (S := List Bytes) seen n []).foldl
            SerializeInto.push out := by
      intro n S inst out
      cases hcase : ff.nodes.getD n (.Token []) with
      | Token t =>
          rw [serialize_noderef_token ff seen n out t hcase,
            serialize_noderef_token ff seen n ([] : List Bytes) t hcase]
          simp [push_trace]
      | Range r =>
          rw [serialize_noderef_range ff seen n out r hcase,
            serialize_noderef_range ff seen n ([] : List Bytes) r hcase]
          by_cases hg : r < seen.length ∧ seen.getD r false = false
          · simp only [if_pos hg]
            have hlt : unseenCount (seen.set r true) < k :=
              hk ▸ unseenCount_set_lt seen r hg.1 hg.2
            exact (ih _ hlt ff (seen.set r true) rfl).2 (ff.ranges.getD r []) out
          · simp only [if_neg hg]
            simp
      | Delim s r e =>
          rw [serialize_noderef_delim ff seen n out s r e hcase,
            serialize_noderef_delim ff seen n ([] : List Bytes) s r e hcase]
          by_cases hg : r < seen.length ∧ seen.getD r false = false
          · simp only [if_pos hg]
            have hlt : unseenCount (seen.set r true) < k :=
              hk ▸ unseenCount_set_lt seen r hg.1 hg.2
            have hrec : ∀ {T : Type} [SerializeInto T] (acc : T),
                FuzzFile.serialize_list ff (seen.set r true) (ff.ranges.getD r []) acc =
                  (FuzzFile.serialize_list ff (S := List Bytes) (seen.set r true)
                    (ff.ranges.getD r []) []).foldl SerializeInto.push acc :=
              fun {T} _ acc => (ih _ hlt ff (seen.set r true) rfl).2 (ff.ranges.getD r []) acc
            rw [hrec (T := S) (SerializeInto.push out s),
              hrec (T := List Bytes) (SerializeInto.push ([] : List Bytes) s)]
            simp [push_trace, foldl_push_trace, List.foldl_append]
          · simp only [if_neg hg]
            simp [push_trace]
    refine ⟨hnode, ?_⟩
    intro l
    induction l with
    | nil => intro S inst out; simp [serialize_list_nil]
    | cons n ns ihl =>
        intro S inst out
        rw [serialize_list_cons, serialize_list_cons,
          ihl (S := S), hnode n (S := S),
          ihl (S := List Bytes) (FuzzFile.serialize_noderef ff (S := List Bytes) seen n []),
          foldl_push_trace, List.foldl_append]

/-- Serializing into any sink from any start is the fold of that sink's
`push` over the free-sink trace of the whole file. -/
theorem serialize_eq_trace {S : Type} [SerializeInto S] (ff : FuzzFile) (out : S) :
    FuzzFile.serialize ff out =
      (FuzzFile.serialize ff (S := List Bytes) []).foldl SerializeInto.push out :=
  (serialize_trace (unseenCount (SerializeState.new ff.ranges)) ff _ rfl).2 ff.root out

/-- The growable sink from empty produces exactly the concatenation of the
trace. -/
theorem foldl_push_vec (l : List Bytes) : ∀ acc : Bytes,
    l.foldl SerializeInto.push acc = acc ++ l.flatten := by
  induction l with
  | nil => simp
  | cons x xs ih => intro acc; simp [push_vec, ih]

theorem serializeVec_eq_trace (ff : FuzzFile) :
    serializeVec ff = (FuzzFile.serialize ff (S := List Bytes) []).flatten := by
  rw [serializeVec, serialize_eq_trace, foldl_push_vec]
  simp

theorem unseenCount_new (ranges : List (List Nat)) :
    unseenCount (SerializeState.new ranges) = ranges.length := by
  induction ranges with
  | nil => rfl
  | cons r rs ih =>
      simp [unseenCount, SerializeState.new, List.countP_cons] at ih ⊢
      omega

/-- With more fuel than there are unseen ranges, the fuel-indexed
serializer finishes and agrees with the serializer. -/
theorem serialize_noderefF_eq {S : Type} [SerializeInto S] (ff : FuzzFile) :
    ∀ (fuel : Nat) (seen : SerializeState), unseenCount seen < fuel →
      ∀ (n : Nat) (out : S),
        FuzzFile.serialize_noderefF ff fuel seen n out =
          some (FuzzFile.serialize_noderef ff seen n out) := by
  intro fuel
  induction fuel with
  | zero => intro seen h; exact absurd h (Nat.not_lt_zero _)
  | succ f ihf =>
      intro seen hseen n out
      have hlist : ∀ (seen' : SerializeState), unseenCount seen' < f →
          ∀ (l : List Nat) (acc : S),
            l.foldlM (fun a m => FuzzFile.serialize_noderefF ff f seen' m a) acc =
              some (FuzzFile.serialize_list ff seen' l acc) := by
        intro seen' h' l
        induction l with
        | nil => intro acc; simp [serialize_list_nil]
        | cons m ms ihm =>
            intro acc
            rw [List.foldlM_cons, ihf seen' h' m acc]
            simp only [Option.bind_eq_bind, Option.some_bind]
            rw [ihm, serialize_list_cons]
      cases hcase : ff.nodes.getD n (.Token []) with
      | Token t =>
          rw [serialize_noderef_token ff seen n out t hcase]
          simp only [FuzzFile.serialize_noderefF]
          rw [hcase]
      | Range r =>
          rw [serialize_noderef_range ff seen n out r hcase]
          simp only [FuzzFile.serialize_noderefF]
          rw [hcase]
          dsimp only
          by_cases hg : r < seen.length ∧ seen.getD r false = false
          · have hlt : unseenCount (seen.set r true) < f :=
              Nat.lt_of_lt_of_le (unseenCount_set_lt seen r hg.1 hg.2)
                (Nat.lt_succ_iff.mp hseen)
            rw [if_pos hg, if_pos hg, hlist (seen.set r true) hlt (ff.ranges.getD r []) out]
          · rw [if_neg hg, if_neg hg]
      | Delim s r e =>
          rw [serialize_noderef_delim ff seen n out s r e hcase]
          simp only [FuzzFile.serialize_noderefF]
          rw [hcase]
          dsimp only
          by_cases hg : r < seen.length ∧ seen.getD r false = false
          · have hlt : unseenCount (seen.set r true) < f :=
              Nat.lt_of_lt_of_le (unseenCount_set_lt seen r hg.1 hg.2)
                (Nat.lt_succ_iff.mp hseen)
            rw [if_pos hg, if_pos hg,
              hlist (seen.set r true) hlt (ff.ranges.getD r []) (SerializeInto.push out s)]
            rfl
          · rw [if_neg hg, if_neg hg]
            rfl

/-- With more fuel than there are ranges, the fuel-indexed `serialize`
finishes and agrees with `serialize`. -/
theorem serializeF_eq {S : Type} [SerializeInto S] (ff : FuzzFile) (fuel : Nat)
    (h : ff.ranges.length < fuel) (out : S) :
    FuzzFile.serializeF ff fuel out = some (FuzzFile.serialize ff out) := by
  have hseen : unseenCount (SerializeState.new ff.ranges) < fuel := by
    rw [unseenCount_new]; exact h
  rw [FuzzFile.serializeF, FuzzFile.serialize]
  induction ff.root generalizing out with
  | nil => simp [serialize_list_nil]
  | cons m ms ihm =>
      rw [List.foldlM_cons, serialize_noderefF_eq ff fuel _ hseen m out]
      simp only [Option.bind_eq_bind, Option.some_bind]
      rw [ihm, serialize_list_cons]

/-- Well-formedness of parser output at one node: the parser creates only
`Token` and `Delim` nodes, creates a `Delim` node's range and all the
range's members before the node itself, and gives nested delim nodes
earlier-created ranges than their enclosing node's. -/
def WfNode (nodes : List Node) (ranges : List (List Nat)) (i : Nat) : Prop :=
  match nodes.getD i (.Token []) with
  | .Token _ => True
  | .Range _ => False
  | .Delim _ r _ =>
      r < ranges.length ∧
      ∀ m ∈ ranges.getD r [], m < i ∧
        ∀ s2 r2 e2, nodes.getD m (.Token []) = .Delim s2 r2 e2 → r2 < r

/-- Well-formedness of a whole parser-produced arena pair. -/
def WfArena (nodes : List Node) (ranges : List (List Nat)) : Prop :=
  ∀ i, i < nodes.length → WfNode nodes ranges i

theorem pureSerF_stable (nodes : List Node) (ranges : List (List Nat))
    (hwf : WfArena nodes ranges) :
    ∀ n, n < nodes.length → ∀ fuel, n < fuel →
      pureSerF nodes ranges fuel n = pureSer nodes ranges n := by
  intro n
  induction n using Nat.strong_induction_on with
  | _ n ih =>
    intro hn fuel hfuel
    obtain ⟨f, rfl⟩ : ∃ f, fuel = f + 1 := ⟨fuel - 1, by omega⟩
    have hw := hwf n hn
    rw [WfNode] at hw
    cases hcase : nodes.getD n (.Token []) with
    | Token t => simp only [pureSer, pureSerF, getD_alt]; rw [hcase]
    | Range r => rw [hcase] at hw; exact absurd hw not_false
    | Delim s r e =>
        rw [hcase] at hw
        dsimp only at hw
        have hchild : List.map (pureSerF nodes ranges f) (ranges.getD r []) =
            List.map (pureSerF nodes ranges n) (ranges.getD r []) := by
          apply List.map_congr_left
          intro m hm
          have hmn := (hw.2 m hm).1
          rw [ih m hmn (Nat.lt_trans hmn hn) f (by omega),
            ih m hmn (Nat.lt_trans hmn hn) n hmn]
        simp only [pureSer, pureSerF, getD_alt]
        rw [hcase]
        dsimp only
        rw [hchild]

/-- Appending fresh entries to the arenas does not change the pure
serialization of old, well-formed nodes. -/
theorem pureSerF_append (nodes : List Node) (ranges : List (List Nat)) (dn : List Node)
    (dr : List (List Nat)) (hwf : WfArena nodes ranges) :
    ∀ fuel n, n < nodes.length →
      pureSerF (nodes ++ dn) (ranges ++ dr) fuel n = pureSerF nodes ranges fuel n := by
  intro fuel
  induction fuel with
  | zero => intro n hn; rfl
  | succ f ihf =>
      intro n hn
      have hget : (nodes ++ dn).getD n (.Token []) = nodes.getD n (.Token []) :=
        List.getD_append nodes dn (.Token []) n hn
      have hw := hwf n hn
      rw [WfNode] at hw
      cases hcase : nodes.getD n (.Token []) with
      | Token t => simp only [pureSerF, getD_alt]; rw [hget, hcase]
      | Range r => rw [hcase] at hw; exact absurd hw not_false
      | Delim s r e =>
          rw [hcase] at hw
          dsimp only at hw
          have hr : (ranges ++ dr).getD r [] = ranges.getD r [] :=
            List.getD_append ranges dr [] r hw.1
          have hchild : List.map (pureSerF (nodes ++ dn) (ranges ++ dr) f)
              (ranges.getD r []) = List.map (pureSerF nodes ranges f) (ranges.getD r []) := by
            apply List.map_congr_left
            intro m hm
            exact ihf m (Nat.lt_trans (hw.2 m hm).1 hn)
          simp only [pureSerF, getD_alt]
          rw [hget, hcase]
          dsimp only
          rw [hr, hchild]

theorem pureSer_append (nodes : List Node) (ranges : List (List Nat)) (dn : List Node)
    (dr : List (List Nat)) (hwf : WfArena nodes ranges) (n : Nat) (hn : n < nodes.length) :
    pureSer (nodes ++ dn) (ranges ++ dr) n = pureSer nodes ranges n :=
  pureSerF_append nodes ranges dn dr hwf (n + 1) n hn

theorem pureSerList_append (nodes : List Node) (ranges : List (List Nat)) (dn : List Node)
    (dr : List (List Nat)) (hwf : WfArena nodes ranges) (l : List Nat)
    (hl : ∀ m ∈ l, m < nodes.length) :
    pureSerList (nodes ++ dn) (ranges ++ dr) l = pureSerList nodes ranges l := by
  unfold pureSerList
  congr 1
  exact List.map_congr_left (fun m hm => pureSer_append nodes ranges dn dr hwf m (hl m hm))

theorem seen_new_getD (ranges : List (List Nat)) (j : Nat) :
    (SerializeState.new ranges).getD j false = false := by
  induction ranges generalizing j with
  | nil => simp [SerializeState.new]
  | cons x xs ih =>
      cases j with
      | zero => simp [SerializeState.new]
      | succ j => simpa [SerializeState.new] using ih j

/-- On a well-formed (parser-shaped) file the re-entrance guard never
fires: the serializer emits exactly the guard-free serialization,
provided no range at or below the node's is already marked. -/
theorem serialize_noderef_eq_pure (ff : FuzzFile) (hwf : WfArena ff.nodes ff.ranges) :
    ∀ n, n < ff.nodes.length → ∀ seen : SerializeState, seen.length = ff.ranges.length →
      (∀ s r e, ff.nodes.getD n (.Token []) = .Delim s r e →
        ∀ j, j ≤ r → seen.getD j false = false) →
      ∀ out : Bytes,
        FuzzFile.serialize_noderef ff seen n out = out ++ pureSer ff.nodes ff.ranges n := by
  intro n
  induction n using Nat.strong_induction_on with
  | _ n ih =>
    intro hn seen hlen hlow out
    have hw := hwf n hn
    rw [WfNode] at hw
    cases hcase : ff.nodes.getD n (.Token []) with
    | Token t =>
        rw [serialize_noderef_token ff seen n out t hcase, push_vec]
        congr 1
        simp only [pureSer, pureSerF, getD_alt]
        rw [hcase]
    | Range r => rw [hcase] at hw; exact absurd hw not_false
    | Delim s r e =>
        rw [hcase] at hw
        dsimp only at hw
        have hg : r < seen.length ∧ seen.getD r false = false :=
          ⟨hlen ▸ hw.1, hlow s r e hcase r le_rfl⟩
        rw [serialize_noderef_delim ff seen n out s r e hcase, if_pos hg]
        have hlist : ∀ (l : List Nat), (∀ m ∈ l, m < n ∧
            (∀ s2 r2 e2, ff.nodes.getD m (.Token []) = .Delim s2 r2 e2 → r2 < r)) →
            ∀ acc : Bytes,
              FuzzFile.serialize_list ff (seen.set r true) l acc =
                acc ++ pureSerList ff.nodes ff.ranges l := by
          intro l
          induction l with
          | nil => intro _ acc; rw [serialize_list_nil]; simp [pureSerList]
          | cons m ms ihm =>
              intro hms acc
              rw [serialize_list_cons]
              have h1 := hms m (List.mem_cons_self m ms)
              have hnode : FuzzFile.serialize_noderef ff (seen.set r true) m acc =
                  acc ++ pureSer ff.nodes ff.ranges m := by
                apply ih m h1.1 (Nat.lt_trans h1.1 hn) (seen.set r true)
                · rw [List.length_set]; exact hlen
                · intro s2 r2 e2 hde j hj
                  have hr2 : r2 < r := h1.2 s2 r2 e2 hde
                  have hne : r ≠ j := by omega
                  rw [← getD_alt, List.getElem?_set_ne hne, getD_alt]
                  exact hlow s r e hcase j (by omega)
              rw [hnode,
                ihm (fun m2 hm2 => hms m2 (List.mem_cons_of_mem m hm2))
                  (acc ++ pureSer ff.nodes ff.ranges m)]
              simp [pureSerList]
        rw [hlist (ff.ranges.getD r []) (fun m hm => hw.2 m hm) (SerializeInto.push out s),
          push_vec, push_vec]
        have hps : pureSer ff.nodes ff.ranges n =
            s ++ pureSerList ff.nodes ff.ranges (ff.ranges.getD r []) ++ e := by
          simp only [pureSer, pureSerF, getD_alt]
          rw [hcase]
          dsimp only
          have hstab : List.map (pureSerF ff.nodes ff.ranges n) (ff.ranges.getD r []) =
              List.map (pureSer ff.nodes ff.ranges) (ff.ranges.getD r []) := by
            apply List.map_congr_left
            intro m hm
            exact pureSerF_stable ff.nodes ff.ranges hwf m
              (Nat.lt_trans (hw.2 m hm).1 hn) n (hw.2 m hm).1
          rw [hstab]
          simp [pureSerList]
        rw [hps]
        simp [List.append_assoc]

/-- On a well-formed file the serializer from the all-clear state computes
the guard-free serialization of the root. -/
theorem serialize_eq_pure (ff : FuzzFile) (hwf : WfArena ff.nodes ff.ranges)
    (hroot : ∀ m ∈ ff.root, m < ff.nodes.length) :
    serializeVec ff = pureSerList ff.nodes ff.ranges ff.root := by
  rw [serializeVec, FuzzFile.serialize]
  have hlen : (SerializeState.new ff.ranges).length = ff.ranges.length := by
    simp [SerializeState.new]
  suffices h : ∀ l, (∀ m ∈ l, m < ff.nodes.length) → ∀ acc : Bytes,
      FuzzFile.serialize_list ff (SerializeState.new ff.ranges) l acc =
        acc ++ pureSerList ff.nodes ff.ranges l by
    simpa using h ff.root hroot []
  intro l
  induction l with
  | nil => intro _ acc; rw [serialize_list_nil]; simp [pureSerList]
  | cons m ms ihm =>
      intro hms acc
      rw [serialize_list_cons,
        serialize_noderef_eq_pure ff hwf m (hms m (List.mem_cons_self m ms))
          (SerializeState.new ff.ranges) hlen
          (fun _ _ _ _ j _ => seen_new_getD ff.ranges j) acc,
        ihm (fun m2 hm2 => hms m2 (List.mem_cons_of_mem m hm2))]
      simp [pureSerList]

/-- What the still-open stack frames will contribute to the serialization
once `finish` flushes them: bottom of the stack first, each frame as its
open pattern followed by its accumulated children. -/
def stackSer (nodes : List Node) (ranges : List (List Nat)) : List SlurpState → Bytes
  | [] => []
  | f :: fs =>
      stackSer nodes ranges fs ++ f.start_pattern ++ pureSerList nodes ranges f.range

/-- The bytes a builder state denotes: the root so far, then the pending
frames — the serialization of the parse once the rest of the input (still
unread) is appended. -/
def TreeBuilder.flushSer (b : TreeBuilder) : Bytes :=
  pureSerList b.nodes b.ranges b.root ++ stackSer b.nodes b.ranges b.stack

/-- Builder invariant: the arenas are parser-shaped and every attached
node index is in bounds. -/
def TreeBuilder.Inv (b : TreeBuilder) : Prop :=
  WfArena b.nodes b.ranges ∧
  (∀ m ∈ b.root, m < b.nodes.length) ∧
  (∀ f ∈ b.stack, ∀ m ∈ f.range, m < b.nodes.length)

theorem getD_append_self {α : Type} (l : List α) (x d : α) :
    (l ++ [x]).getD l.length d = x := by
  rw [List.getD_append_right l [x] d l.length le_rfl]
  simp

theorem pureSerList_snoc (nodes : List Node) (ranges : List (List Nat)) (l : List Nat)
    (m : Nat) :
    pureSerList nodes ranges (l ++ [m]) = pureSerList nodes ranges l ++ pureSer nodes ranges m := by
  simp [pureSerList]

theorem pureSer_token_last (nodes : List Node) (ranges : List (List Nat)) (t : Bytes) :
    pureSer (nodes ++ [Node.Token t]) ranges nodes.length = t := by
  simp only [pureSer, pureSerF, getD_alt]
  rw [getD_append_self]

theorem stackSer_ext (nodes : List Node) (ranges : List (List Nat)) (dn : List Node)
    (dr : List (List Nat)) (hwf : WfArena nodes ranges) :
    ∀ st : List SlurpState, (∀ f ∈ st, ∀ m ∈ f.range, m < nodes.length) →
      stackSer (nodes ++ dn) (ranges ++ dr) st = stackSer nodes ranges st := by
  intro st
  induction st with
  | nil => intro _; rfl
  | cons f fs ih =>
      intro hb
      rw [stackSer, stackSer, ih (fun f2 h2 => hb f2 (List.mem_cons_of_mem f h2)),
        pureSerList_append nodes ranges dn dr hwf f.range
          (hb f (List.mem_cons_self f fs))]

theorem WfNode_ext (nodes : List Node) (ranges : List (List Nat)) (dn : List Node)
    (dr : List (List Nat)) (i : Nat) (hi : i < nodes.length) (h : WfNode nodes ranges i) :
    WfNode (nodes ++ dn) (ranges ++ dr) i := by
  rw [WfNode] at h ⊢
  rw [List.getD_append nodes dn (.Token []) i hi]
  cases hcase : nodes.getD i (.Token []) with
  | Token t => trivial
  | Range r => rw [hcase] at h; exact h
  | Delim s r e =>
      rw [hcase] at h
      dsimp only at h ⊢
      refine ⟨by simp only [List.length_append]; omega, ?_⟩
      rw [List.getD_append ranges dr [] r h.1]
      intro m hm
      refine ⟨(h.2 m hm).1, ?_⟩
      intro s2 r2 e2 hm2
      apply (h.2 m hm).2 s2 r2 e2
      rw [← hm2, List.getD_append nodes dn (.Token []) m
        (Nat.lt_trans (h.2 m hm).1 hi)]

/-- `add_node_ref` leaves the arenas alone, preserves the stack length,
and appends the node's bytes at the end of the denoted serialization. -/
theorem add_node_ref_props (b : TreeBuilder) (m : Nat) :
    (b.add_node_ref m).nodes = b.nodes ∧ (b.add_node_ref m).ranges = b.ranges ∧
    (b.add_node_ref m).stack.length = b.stack.length ∧
    (b.add_node_ref m).flushSer = b.flushSer ++ pureSer b.nodes b.ranges m := by
  cases hst : b.stack with
  | nil =>
      simp [TreeBuilder.add_node_ref, hst, TreeBuilder.flushSer, pureSerList_snoc,
        stackSer]
  | cons f fs =>
      simp [TreeBuilder.add_node_ref, hst, TreeBuilder.flushSer, stackSer,
        pureSerList_snoc]

theorem add_node_ref_inv (b : TreeBuilder) (m : Nat) (hInv : b.Inv)
    (hm : m < b.nodes.length) : (b.add_node_ref m).Inv := by
  obtain ⟨hwf, hroot, hstack⟩ := hInv
  cases hst : b.stack with
  | nil =>
      simp only [TreeBuilder.Inv, TreeBuilder.add_node_ref, hst]
      refine ⟨hwf, ?_, ?_⟩
      · intro m2 hm2
        rcases List.mem_append.mp hm2 with h | h
        · exact hroot m2 h
        · exact (List.mem_singleton.mp h) ▸ hm
      · intro f hf
        exact absurd hf (List.not_mem_nil f)
  | cons f fs =>
      simp only [TreeBuilder.Inv, TreeBuilder.add_node_ref, hst]
      refine ⟨hwf, hroot, ?_⟩
      intro f2 hf2 m2 hm2
      rcases List.mem_cons.mp hf2 with h | h
      · subst h
        simp only at hm2
        rcases List.mem_append.mp hm2 with h2 | h2
        · exact hstack f (hst ▸ List.mem_cons_self f fs) m2 h2
        · exact (List.mem_singleton.mp h2) ▸ hm
      · exact hstack f2 (hst ▸ List.mem_cons_of_mem f h) m2 hm2

theorem WfArena_snoc_token (nodes : List Node) (ranges : List (List Nat)) (t : Bytes)
    (hwf : WfArena nodes ranges) : WfArena (nodes ++ [Node.Token t]) ranges := by
  intro i hi
  simp only [List.length_append, List.length_singleton] at hi
  by_cases h : i < nodes.length
  · have := WfNode_ext nodes ranges [Node.Token t] [] i h (hwf i h)
    simpa using this
  · have hieq : i = nodes.length := by omega
    subst hieq
    rw [WfNode, getD_append_self]
    trivial

theorem WfArena_snoc_delim (nodes : List Node) (ranges : List (List Nat)) (s e : Bytes)
    (rg : List Nat) (hwf : WfArena nodes ranges) (hrg : ∀ m ∈ rg, m < nodes.length) :
    WfArena (nodes ++ [Node.Delim s ranges.length e]) (ranges ++ [rg]) := by
  intro i hi
  simp only [List.length_append, List.length_singleton] at hi
  by_cases h : i < nodes.length
  · exact WfNode_ext nodes ranges _ _ i h (hwf i h)
  · have hieq : i = nodes.length := by omega
    subst hieq
    rw [WfNode, getD_append_self]
    dsimp only
    refine ⟨by simp only [List.length_append, List.length_singleton]; omega, ?_⟩
    rw [getD_append_self]
    intro m hm
    refine ⟨hrg m hm, ?_⟩
    intro s2 r2 e2 hm2
    rw [List.getD_append nodes _ (.Token []) m (hrg m hm)] at hm2
    have hwm := hwf m (hrg m hm)
    rw [WfNode, hm2] at hwm
    exact hwm.1

/-- `push_token` keeps the ranges and the stack shape, extends the node
arena, preserves the invariant, and appends exactly the token's bytes at
the end of the denoted serialization. -/
theorem push_token_props (b : TreeBuilder) (t : Bytes) (hInv : b.Inv) :
    (b.push_token t).Inv ∧
    (b.push_token t).flushSer = b.flushSer ++ t ∧
    (b.push_token t).ranges = b.ranges ∧
    (b.push_token t).stack.length = b.stack.length ∧
    (∃ dn, (b.push_token t).nodes = b.nodes ++ dn) := by
  obtain ⟨hwf, hroot, hstack⟩ := hInv
  by_cases hemp : t.isEmpty
  · have ht : t = [] := List.isEmpty_iff.mp hemp
    subst ht
    have hid : b.push_token [] = b := rfl
    rw [hid]
    exact ⟨⟨hwf, hroot, hstack⟩, by simp, rfl, rfl, ⟨[], by simp⟩⟩
  · simp only [TreeBuilder.push_token, if_neg hemp, TreeBuilder.push_node]
    set b1 : TreeBuilder := { b with nodes := b.nodes ++ [Node.Token t] } with hb1
    have hwf1 : WfArena b1.nodes b1.ranges := WfArena_snoc_token b.nodes b.ranges t hwf
    have hInv1 : b1.Inv := by
      refine ⟨hwf1, ?_, ?_⟩
      · intro m hm
        simp only [hb1, List.length_append]
        exact Nat.lt_of_lt_of_le (hroot m hm) (by omega)
      · intro f hf m hm
        simp only [hb1, List.length_append]
        exact Nat.lt_of_lt_of_le (hstack f hf m hm) (by omega)
    have hflush1 : b1.flushSer = b.flushSer := by
      simp only [TreeBuilder.flushSer, hb1]
      rw [show (b.nodes ++ [Node.Token t] : List Node) =
          b.nodes ++ [Node.Token t] from rfl]
      have h1 : pureSerList (b.nodes ++ [Node.Token t]) b.ranges b.root =
          pureSerList b.nodes b.ranges b.root := by
        have := pureSerList_append b.nodes b.ranges [Node.Token t] [] hwf b.root hroot
        simpa using this
      have h2 : stackSer (b.nodes ++ [Node.Token t]) b.ranges b.stack =
          stackSer b.nodes b.ranges b.stack := by
        have := stackSer_ext b.nodes b.ranges [Node.Token t] [] hwf b.stack hstack
        simpa using this
      rw [h1, h2]
    obtain ⟨ha1, ha2, ha3, ha4⟩ := add_node_ref_props b1 b.nodes.length
    refine ⟨?_, ?_, ?_, ?_, ?_⟩
    · exact add_node_ref_inv b1 b.nodes.length hInv1
        (by simp [hb1, List.length_append])
    · rw [ha4, hflush1]
      congr 1
      exact pureSer_token_last b.nodes b.ranges t
    · rw [ha2]
    · rw [ha3]
    · exact ⟨[Node.Token t], by rw [ha1]⟩

theorem start_recurse_props (b : TreeBuilder) (s e : Bytes) (hInv : b.Inv) :
    (b.start_recurse s e).Inv ∧
    (b.start_recurse s e).flushSer = b.flushSer ++ s ∧
    (b.start_recurse s e).nodes = b.nodes ∧ (b.start_recurse s e).ranges = b.ranges := by
  obtain ⟨hwf, hroot, hstack⟩ := hInv
  refine ⟨⟨hwf, hroot, ?_⟩, ?_, rfl, rfl⟩
  · intro f hf m hm
    simp only [TreeBuilder.start_recurse, List.mem_cons] at hf
    rcases hf with h | h
    · subst h; exact absurd hm (List.not_mem_nil m)
    · exact hstack f h m hm
  · simp [TreeBuilder.flushSer, TreeBuilder.start_recurse, stackSer, pureSerList]

theorem pureSer_delim_last (nodes : List Node) (ranges : List (List Nat)) (s e : Bytes)
    (rg : List Nat) (hwf : WfArena nodes ranges) (hrg : ∀ m ∈ rg, m < nodes.length) :
    pureSer (nodes ++ [Node.Delim s ranges.length e]) (ranges ++ [rg]) nodes.length =
      s ++ pureSerList nodes ranges rg ++ e := by
  simp only [pureSer, pureSerF, getD_alt]
  rw [getD_append_self]
  dsimp only
  rw [getD_append_self]
  have hmap : List.map (pureSerF (nodes ++ [Node.Delim s ranges.length e])
      (ranges ++ [rg]) nodes.length) rg = List.map (pureSer nodes ranges) rg := by
    apply List.map_congr_left
    intro m hm
    have hwfx := WfArena_snoc_delim nodes ranges s e rg hwf hrg
    have hmx : m < (nodes ++ [Node.Delim s ranges.length e]).length := by
      simp only [List.length_append, List.length_singleton]
      exact Nat.lt_of_lt_of_le (hrg m hm) (by omega)
    rw [pureSerF_stable _ _ hwfx m hmx nodes.length (hrg m hm)]
    exact pureSer_append nodes ranges _ _ hwf m (hrg m hm)
  rw [hmap]
  rfl

theorem end_recurse_props (b : TreeBuilder) (e : Bytes) (hInv : b.Inv) :
    (b.end_recurse e).Inv ∧ (b.end_recurse e).flushSer = b.flushSer ++ e := by
  obtain ⟨hwf, hroot, hstack⟩ := hInv
  cases hst : b.stack with
  | nil =>
      have hnone : b.state_with_end_pattern e = none := by
        simp [TreeBuilder.state_with_end_pattern, hst]
      have hred : b.end_recurse e = b.push_token e := by
        rw [TreeBuilder.end_recurse, hnone]
      rw [hred]
      obtain ⟨h1, h2, _, _, _⟩ := push_token_props b e ⟨hwf, hroot, hstack⟩
      exact ⟨h1, h2⟩
  | cons f fs =>
      by_cases hfe : f.end_pattern = e
      · have hsome : b.state_with_end_pattern e = some (f, { b with stack := fs }) := by
          simp [TreeBuilder.state_with_end_pattern, hst, hfe]
        have hred : b.end_recurse e =
            TreeBuilder.add_node_ref
              { b with
                nodes := b.nodes ++ [Node.Delim f.start_pattern b.ranges.length e],
                ranges := b.ranges ++ [f.range],
                stack := fs }
              b.nodes.length := by
          rw [TreeBuilder.end_recurse, hsome]
          rfl
        rw [hred]
        set b3 : TreeBuilder :=
          { b with
            nodes := b.nodes ++ [Node.Delim f.start_pattern b.ranges.length e],
            ranges := b.ranges ++ [f.range],
            stack := fs } with hb3
        have hrg : ∀ m ∈ f.range, m < b.nodes.length :=
          hstack f (hst ▸ List.mem_cons_self f fs)
        have hstackfs : ∀ f2 ∈ fs, ∀ m ∈ f2.range, m < b.nodes.length :=
          fun f2 h2 => hstack f2 (hst ▸ List.mem_cons_of_mem f h2)
        have hwf3 : WfArena b3.nodes b3.ranges :=
          WfArena_snoc_delim b.nodes b.ranges f.start_pattern e f.range hwf hrg
        have hlen3 : b.nodes.length < b3.nodes.length := by
          simp [hb3, List.length_append]
        have hInv3 : b3.Inv := by
          refine ⟨hwf3, ?_, ?_⟩
          · intro m hm
            exact Nat.lt_of_lt_of_le (hroot m hm) (Nat.le_of_lt hlen3)
          · intro f2 h2 m hm
            exact Nat.lt_of_lt_of_le (hstackfs f2 h2 m hm) (Nat.le_of_lt hlen3)
        have hflush3 : b3.flushSer =
            pureSerList b.nodes b.ranges b.root ++ stackSer b.nodes b.ranges fs := by
          simp only [TreeBuilder.flushSer, hb3]
          rw [pureSerList_append b.nodes b.ranges _ _ hwf b.root hroot,
            stackSer_ext b.nodes b.ranges _ _ hwf fs hstackfs]
        obtain ⟨ha1, ha2, ha3, ha4⟩ := add_node_ref_props b3 b.nodes.length
        refine ⟨add_node_ref_inv b3 b.nodes.length hInv3 hlen3, ?_⟩
        rw [ha4, hflush3]
        have hps : pureSer b3.nodes b3.ranges b.nodes.length =
            f.start_pattern ++ pureSerList b.nodes b.ranges f.range ++ e :=
          pureSer_delim_last b.nodes b.ranges f.start_pattern e f.range hwf hrg
        rw [hps, TreeBuilder.flushSer, hst, stackSer]
        simp [List.append_assoc]
      · have hnone : b.state_with_end_pattern e = none := by
          simp [TreeBuilder.state_with_end_pattern, hst, hfe]
        have hred : b.end_recurse e = b.push_token e := by
          rw [TreeBuilder.end_recurse, hnone]
        rw [hred]
        obtain ⟨h1, h2, _, _, _⟩ := push_token_props b e ⟨hwf, hroot, hstack⟩
        exact ⟨h1, h2⟩

theorem add_node_refs_props (l : List Nat) : ∀ (b : TreeBuilder), b.Inv →
    (∀ m ∈ l, m < b.nodes.length) →
    (b.add_node_refs l).Inv ∧
    (b.add_node_refs l).flushSer = b.flushSer ++ pureSerList b.nodes b.ranges l ∧
    (b.add_node_refs l).nodes = b.nodes ∧ (b.add_node_refs l).ranges = b.ranges ∧
    (b.add_node_refs l).stack.length = b.stack.length := by
  induction l with
  | nil =>
      intro b hInv _
      exact ⟨hInv, by simp [TreeBuilder.add_node_refs, pureSerList], rfl, rfl, rfl⟩
  | cons m ms ih =>
      intro b hInv hl
      have hfold : b.add_node_refs (m :: ms) = (b.add_node_ref m).add_node_refs ms := rfl
      obtain ⟨ha1, ha2, ha3, ha4⟩ := add_node_ref_props b m
      have hInv2 := add_node_ref_inv b m hInv (hl m (List.mem_cons_self m ms))
      have hl2 : ∀ m2 ∈ ms, m2 < (b.add_node_ref m).nodes.length := by
        rw [ha1]; exact fun m2 h => hl m2 (List.mem_cons_of_mem m h)
      obtain ⟨hb1, hb2, hb3, hb4, hb5⟩ := ih (b.add_node_ref m) hInv2 hl2
      rw [hfold]
      refine ⟨hb1, ?_, by rw [hb3, ha1], by rw [hb4, ha2], by rw [hb5, ha3]⟩
      rw [hb2, ha4, ha1, ha2]
      simp [pureSerList, List.append_assoc]

theorem finishFuel_props : ∀ (n : Nat) (b : TreeBuilder), b.Inv →
    (TreeBuilder.finishFuel n b).Inv ∧
    (TreeBuilder.finishFuel n b).flushSer = b.flushSer ∧
    (TreeBuilder.finishFuel n b).stack.length = b.stack.length - n := by
  intro n
  induction n with
  | zero => intro b hInv; exact ⟨hInv, rfl, by simp [TreeBuilder.finishFuel]⟩
  | succ k ih =>
      intro b hInv
      obtain ⟨hwf, hroot, hstack⟩ := hInv
      cases hst : b.stack with
      | nil =>
          have hred : TreeBuilder.finishFuel (k + 1) b = b := by
            rw [TreeBuilder.finishFuel, hst]
          rw [hred]
          exact ⟨⟨hwf, hroot, hstack⟩, rfl, by rw [hst]; simp⟩
      | cons f fs =>
          set b1 : TreeBuilder := { b with stack := fs } with hb1
          have hInv1 : b1.Inv :=
            ⟨hwf, hroot, fun f2 h2 => hstack f2 (hst ▸ List.mem_cons_of_mem f h2)⟩
          have hrg : ∀ m ∈ f.range, m < b.nodes.length :=
            hstack f (hst ▸ List.mem_cons_self f fs)
          obtain ⟨hp1, hp2, hp3, hp4, dn, hp5⟩ :=
            push_token_props b1 f.start_pattern hInv1
          have hl2 : ∀ m ∈ f.range, m < (b1.push_token f.start_pattern).nodes.length := by
            rw [hp5]
            intro m hm
            simp only [List.length_append]
            exact Nat.lt_of_lt_of_le (hrg m hm) (by omega)
          obtain ⟨hq1, hq2, hq3, hq4, hq5⟩ :=
            add_node_refs_props f.range (b1.push_token f.start_pattern) hp1 hl2
          have hred : TreeBuilder.finishFuel (k + 1) b =
              TreeBuilder.finishFuel k ((b1.push_token f.start_pattern).add_node_refs f.range) := by
            rw [TreeBuilder.finishFuel, hst]
          obtain ⟨hr1, hr2, hr3⟩ := ih ((b1.push_token f.start_pattern).add_node_refs f.range) hq1
          rw [hred]
          refine ⟨hr1, ?_, ?_⟩
          · rw [hr2, hq2, hp2]
            have hkeep : pureSerList (b1.push_token f.start_pattern).nodes
                (b1.push_token f.start_pattern).ranges f.range =
                pureSerList b.nodes b.ranges f.range := by
              rw [hp5, hp3]
              have := pureSerList_append b.nodes b.ranges dn [] hwf f.range hrg
              simpa using this
            rw [hkeep]
            have hflb : b.flushSer = b1.flushSer ++ f.start_pattern ++
                pureSerList b.nodes b.ranges f.range := by
              simp only [TreeBuilder.flushSer, hb1, hst, stackSer]
              simp [List.append_assoc]
            rw [hflb]
          · rw [hr3, hq5, hp4]
            simp only [hb1, hst, List.length_cons]
            omega

/-- parse.rs: the bytes one scan event accounts for. -/
def Match.consumed : Match → Bytes
  | .Break token _ => token
  | .Tokenizer pre token _ => pre ++ token
  | .DelimStart pre start_slice _ _ => pre ++ start_slice
  | .DelimEnd pre end_slice _ => pre ++ end_slice

/-- parse.rs: the remainder a scan event leaves for the next iteration. -/
def Match.rest : Match → Bytes
  | .Break _ rest => rest
  | .Tokenizer _ _ rest => rest
  | .DelimStart _ _ _ rest => rest
  | .DelimEnd _ _ rest => rest

theorem scanDefAt_decomp (buf : Bytes) (i : Nat) (d : GrammarDef) (ev : Match)
    (h : scanDefAt buf i d = some ev) : ev.consumed ++ ev.rest = buf := by
  cases d with
  | Delim s e =>
      simp only [scanDefAt] at h
      by_cases h1 : s.isPrefixOf (buf.drop i)
      · rw [if_pos h1, Option.some.injEq] at h
        subst h
        simp only [Match.consumed, Match.rest]
        rw [List.append_assoc, List.take_append_drop, List.take_append_drop]
      · rw [if_neg h1] at h
        by_cases h2 : e.isPrefixOf (buf.drop i)
        · rw [if_pos h2, Option.some.injEq] at h
          subst h
          simp only [Match.consumed, Match.rest]
          rw [List.append_assoc, List.take_append_drop, List.take_append_drop]
        · rw [if_neg h2] at h
          exact absurd h (Option.noConfusion)
  | Tokenizer p =>
      simp only [scanDefAt] at h
      by_cases h1 : p.isPrefixOf (buf.drop i)
      · rw [if_pos h1, Option.some.injEq] at h
        subst h
        simp only [Match.consumed, Match.rest]
        rw [List.append_assoc, List.take_append_drop, List.take_append_drop]
      · rw [if_neg h1] at h
        exact absurd h (Option.noConfusion)
  | Breaker p =>
      simp only [scanDefAt] at h
      by_cases h1 : i ≠ 0 ∧ p.isPrefixOf (buf.drop i)
      · rw [if_pos h1, Option.some.injEq] at h
        subst h
        simp only [Match.consumed, Match.rest]
        rw [List.take_append_drop]
      · rw [if_neg h1] at h
        exact absurd h (Option.noConfusion)

theorem scan_next_decomp (g : Grammar) (buf : Bytes) :
    (scan_next g buf).consumed ++ (scan_next g buf).rest = buf := by
  rw [scan_next]
  cases hfind : (List.range buf.length).findSome?
      (fun i => g.defs.findSome? (scanDefAt buf i)) with
  | none => simp [Match.consumed, Match.rest]
  | some ev =>
      simp only [Option.getD_some]
      obtain ⟨i, _, hsome⟩ := List.exists_of_findSome?_eq_some hfind
      obtain ⟨d, _, hds⟩ := List.exists_of_findSome?_eq_some hsome
      exact scanDefAt_decomp buf i d ev hds

/-- The scan loop invariant: whenever the loop finishes, the builder's
denoted serialization has grown by exactly the input it consumed. -/
theorem slurpF_props (g : Grammar) : ∀ (fuel : Nat) (remainder : Bytes)
    (b b2 : TreeBuilder), b.Inv → slurpF g fuel remainder b = some b2 →
      b2.Inv ∧ b2.flushSer = b.flushSer ++ remainder := by
  intro fuel
  induction fuel with
  | zero =>
      intro rem b b2 hInv h
      simp only [slurpF] at h
      by_cases hre : rem.isEmpty
      · rw [if_pos hre, Option.some.injEq] at h
        subst h
        rw [List.isEmpty_iff.mp hre]
        exact ⟨hInv, by simp⟩
      · rw [if_neg hre] at h
        exact absurd h Option.noConfusion
  | succ f ihf =>
      intro rem b b2 hInv h
      simp only [slurpF] at h
      by_cases hre : rem.isEmpty
      · rw [if_pos hre, Option.some.injEq] at h
        subst h
        rw [List.isEmpty_iff.mp hre]
        exact ⟨hInv, by simp⟩
      · rw [if_neg hre] at h
        have hdec := scan_next_decomp g rem
        cases hscan : scan_next g rem with
        | Tokenizer pre token rest =>
            rw [hscan] at h hdec
            simp only [Match.consumed, Match.rest] at hdec
            obtain ⟨hp1, hp2, _, _, _⟩ := push_token_props b pre hInv
            obtain ⟨hq1, hq2, _, _, _⟩ :=
              push_token_props (b.push_token pre) token hp1
            obtain ⟨hr1, hr2⟩ := ihf rest _ b2 hq1 h
            refine ⟨hr1, ?_⟩
            rw [hr2, hq2, hp2, ← hdec]
            simp [List.append_assoc]
        | DelimStart pre start_slice end_pattern rest =>
            rw [hscan] at h hdec
            simp only [Match.consumed, Match.rest] at hdec
            obtain ⟨hp1, hp2, _, _, _⟩ := push_token_props b pre hInv
            obtain ⟨hq1, hq2, _, _⟩ :=
              start_recurse_props (b.push_token pre) start_slice end_pattern hp1
            obtain ⟨hr1, hr2⟩ := ihf rest _ b2 hq1 h
            refine ⟨hr1, ?_⟩
            rw [hr2, hq2, hp2, ← hdec]
            simp [List.append_assoc]
        | DelimEnd pre end_slice rest =>
            rw [hscan] at h hdec
            simp only [Match.consumed, Match.rest] at hdec
            obtain ⟨hp1, hp2, _, _, _⟩ := push_token_props b pre hInv
            obtain ⟨hq1, hq2⟩ := end_recurse_props (b.push_token pre) end_slice hp1
            obtain ⟨hr1, hr2⟩ := ihf rest _ b2 hq1 h
            refine ⟨hr1, ?_⟩
            rw [hr2, hq2, hp2, ← hdec]
            simp [List.append_assoc]
        | Break token rest =>
            rw [hscan] at h hdec
            simp only [Match.consumed, Match.rest] at hdec
            obtain ⟨hp1, hp2, _, _, _⟩ := push_token_props b token hInv
            obtain ⟨hr1, hr2⟩ := ihf rest _ b2 hp1 h
            refine ⟨hr1, ?_⟩
            rw [hr2, hp2, ← hdec]
            simp [List.append_assoc]

/-- Whenever the scan loop of `slurp` finishes (any fuel), serializing the
unmutated view of the resulting `ParsedFile` into the growable sink
reproduces the input byte-for-byte. -/
theorem slurp_roundTrip (g : Grammar) (buf : Bytes) (fuel : Nat) (pf : ParsedFile)
    (h : slurpWith g buf fuel = some pf) :
    serializeVec (FuzzFile.new pf) = buf := by
  unfold slurpWith at h
  cases hb : slurpF g fuel buf TreeBuilder.new with
  | none => rw [hb] at h; exact absurd h Option.noConfusion
  | some b =>
      rw [hb] at h
      simp only [Option.map_some', Option.some.injEq] at h
      have hInv0 : TreeBuilder.new.Inv := by
        refine ⟨?_, ?_, ?_⟩
        · intro i hi
          exact absurd hi (by simp [TreeBuilder.new])
        · intro m hm
          exact absurd hm (List.not_mem_nil m)
        · intro fr hfr
          exact absurd hfr (List.not_mem_nil fr)
      obtain ⟨hInvb, hflush⟩ := slurpF_props g fuel buf TreeBuilder.new b hInv0 hb
      obtain ⟨hInvF, hflF, hstF⟩ := finishFuel_props b.stack.length b hInvb
      have hstack0 : (TreeBuilder.finish b).stack = [] := by
        apply List.length_eq_zero.mp
        rw [TreeBuilder.finish, hstF]
        omega
      obtain ⟨hwfF, hrootF, _⟩ := hInvF
      subst h
      have hser : serializeVec (FuzzFile.new
          ⟨b.finish.root, b.finish.nodes, b.finish.ranges⟩) =
          pureSerList b.finish.nodes b.finish.ranges b.finish.root := by
        apply serialize_eq_pure
        · exact hwfF
        · exact hrootF
      rw [hser]
      have hfl2 : b.finish.flushSer =
          pureSerList b.finish.nodes b.finish.ranges b.finish.root := by
        rw [TreeBuilder.flushSer, hstack0]
        simp [stackSer]
      rw [← hfl2, TreeBuilder.finish, hflF, hflush]
      rfl

/-- Patterns that guarantee scanner progress: every delimiter open and
close and every tokenizer pattern is non-empty (breakers are already
suppressed at offset 0 by `scan_next`). -/
def nonemptyPatterns (g : Grammar) : Bool :=
  g.defs.all (fun d =>
    match d with
    | .Delim s e => !s.isEmpty && !e.isEmpty
    | .Tokenizer p => !p.isEmpty
    | .Breaker _ => true)

theorem length_pos_of_isEmpty_false {α : Type} (l : List α) (h : l.isEmpty = false) :
    0 < l.length := by
  cases l with
  | nil => simp at h
  | cons x xs => simp

theorem scan_next_progress (g : Grammar) (buf : Bytes)
    (hg : nonemptyPatterns g = true) (hne : buf ≠ []) :
    (scan_next g buf).rest.length < buf.length := by
  have hbuf : 0 < buf.length := List.length_pos.mpr hne
  rw [scan_next]
  cases hfind : (List.range buf.length).findSome?
      (fun i => g.defs.findSome? (scanDefAt buf i)) with
  | none =>
      simp only [Option.getD_none, Match.rest, List.drop_length, List.length_nil]
      exact hbuf
  | some ev =>
      simp only [Option.getD_some]
      obtain ⟨i, _, hsome⟩ := List.exists_of_findSome?_eq_some hfind
      obtain ⟨d, hd, hds⟩ := List.exists_of_findSome?_eq_some hsome
      have hpat := List.all_eq_true.mp hg d hd
      cases d with
      | Delim s e =>
          simp only [Bool.and_eq_true, Bool.not_eq_true'] at hpat
          have hs : 0 < s.length := length_pos_of_isEmpty_false s hpat.1
          have he : 0 < e.length := length_pos_of_isEmpty_false e hpat.2
          simp only [scanDefAt] at hds
          by_cases h1 : s.isPrefixOf (buf.drop i)
          · rw [if_pos h1, Option.some.injEq] at hds
            subst hds
            simp only [Match.rest, List.length_drop]
            omega
          · rw [if_neg h1] at hds
            by_cases h2 : e.isPrefixOf (buf.drop i)
            · rw [if_pos h2, Option.some.injEq] at hds
              subst hds
              simp only [Match.rest, List.length_drop]
              omega
            · rw [if_neg h2] at hds
              exact absurd hds Option.noConfusion
      | Tokenizer p =>
          simp only [Bool.not_eq_true'] at hpat
          have hp : 0 < p.length := length_pos_of_isEmpty_false p hpat
          simp only [scanDefAt] at hds
          by_cases h1 : p.isPrefixOf (buf.drop i)
          · rw [if_pos h1, Option.some.injEq] at hds
            subst hds
            simp only [Match.rest, List.length_drop]
            omega
          · rw [if_neg h1] at hds
            exact absurd hds Option.noConfusion
      | Breaker p =>
          simp only [scanDefAt] at hds
          by_cases h1 : i ≠ 0 ∧ p.isPrefixOf (buf.drop i)
          · rw [if_pos h1, Option.some.injEq] at hds
            subst hds
            simp only [Match.rest, List.length_drop]
            have : i ≠ 0 := h1.1
            omega
          · rw [if_neg h1] at hds
            exact absurd hds Option.noConfusion

theorem slurpF_total (g : Grammar) (hg : nonemptyPatterns g = true) :
    ∀ (fuel : Nat) (rem : Bytes), rem.length < fuel → ∀ b : TreeBuilder,
      (slurpF g fuel rem b).isSome := by
  intro fuel
  induction fuel with
  | zero => intro rem h; omega
  | succ f ih =>
      intro rem hlen b
      by_cases hre : rem.isEmpty
      · simp [slurpF, hre]
      · have hne : rem ≠ [] := fun h => hre (by simp [h])
        have hprog := scan_next_progress g rem hg hne
        simp only [slurpF, if_neg hre]
        cases hscan : scan_next g rem with
        | Tokenizer pre token rest =>
            rw [hscan] at hprog
            exact ih rest (by simp only [Match.rest] at hprog; omega) _
        | DelimStart pre start_slice end_pattern rest =>
            rw [hscan] at hprog
            exact ih rest (by simp only [Match.rest] at hprog; omega) _
        | DelimEnd pre end_slice rest =>
            rw [hscan] at hprog
            exact ih rest (by simp only [Match.rest] at hprog; omega) _
        | Break token rest =>
            rw [hscan] at hprog
            exact ih rest (by simp only [Match.rest] at hprog; omega) _

/-- With progress-guaranteeing patterns, `slurp` always returns a
`ParsedFile`. -/
theorem slurp_total (g : Grammar) (hg : nonemptyPatterns g = true) (buf : Bytes) :
    (slurp g buf).isSome := by
  rw [slurp, slurpWith, Option.isSome_map']
  exact slurpF_total g hg (buf.length + 1) buf (by omega) TreeBuilder.new

/-- A grammar with an empty tokenizer pattern: at any non-empty input the
scanner fires the tokenizer at offset 0 and consumes nothing. -/
def gEmptyTok : Grammar := ⟨[.Tokenizer []], []⟩

theorem slurpF_gEmptyTok_none : ∀ (fuel : Nat) (b : TreeBuilder),
    slurpF gEmptyTok fuel [49] b = none := by
  intro fuel
  induction fuel with
  | zero => intro b; rfl
  | succ f ih =>
      intro b
      have hstep : slurpF gEmptyTok (f + 1) [49] b = slurpF gEmptyTok f [49] b := rfl
      rw [hstep]
      exact ih b

/-- fuzz.rs: `Mutation`. -/
inductive Mutation
  | DuplicateRange
  | DuplicateRootNode
  | EmptyDelim
  | NestDelim
  | RandDelim
  | RemoveDelim
  | ShuffleRanges
  | SwapDelim
  | SwapRanges
deriving DecidableEq

/-- fuzz.rs: `default_mutations`. -/
def default_mutations : List Mutation :=
  [.DuplicateRange, .DuplicateRootNode, .EmptyDelim, .NestDelim, .RandDelim,
   .RemoveDelim, .ShuffleRanges, .SwapDelim, .SwapRanges]

/-- fuzz.rs: `FuzzConfig` (the `all_delims` pairs as plain byte strings). -/
structure FuzzConfig where
  max_mutations : Nat
  max_duplications : Nat
  valid_actions : List Mutation
  all_delims : List (Bytes × Bytes)

/-- Model of `rand::Rng::choose`: `None` iff the slice is empty, else an
element; the PRNG draw is passed in as the seed `c`, and every index is
reachable by some seed. -/
def choose {α : Type} (l : List α) (c : Nat) : Option α :=
  if l.isEmpty then none else l.get? (c % l.length)

/-- Model of `rand::Rng::choose_mut` as the chosen index (the caller
mutates that slot in place). -/
def chooseIdx {α : Type} (l : List α) (c : Nat) : Option Nat :=
  if l.isEmpty then none else some (c % l.length)

/-- Model of `rand 0.3`'s `rand::sample(rng, 0..len, 2)`, which is
reservoir sampling: the reservoir starts as `[0, 1]` (the first two
elements in order); each later element `2 + i` draws
`k = gen_range(0, i + 1 + 2)` and overwrites `reservoir[k]` exactly when
`k < 2` (`reservoir.get_mut(k)`).  The i-th draw is taken from the seed
list as `seeds[i] % (i + 3)`, which ranges over exactly the values the
PRNG's `gen_range(0, i + 3)` can produce. -/
def sample2 (len : Nat) (seeds : List Nat) : Nat × Nat :=
  (List.range (len - 2)).foldl
    (fun res i =>
      if seeds.getD i 0 % (i + 3) = 0 then (i + 2, res.2)
      else if seeds.getD i 0 % (i + 3) = 1 then (res.1, i + 2)
      else res)
    (0, 1)

/-- fuzz.rs: `rand_indices` — `None` unless the slice (of length `len`)
has at least two elements. -/
def rand_indices (len : Nat) (seeds : List Nat) : Option (Nat × Nat) :=
  if len > 1 then some (sample2 len seeds) else none

/-- Model of `rand 0.3`'s `gen_range(low, high)`: the source panics
(`none`) unless `low < high`, else some value of `[low, high)` — every
such value reachable by some seed `k`. -/
def gen_range (low high k : Nat) : Option Nat :=
  if low < high then some (low + k % (high - low)) else none

/-- fuzz.rs: the free function `rand_delim` (named apart from the
`FuzzFile::rand_delim` mutator, which shadows it inside the namespace) —
collect `(index, open, close, rangeref)` of every `Delim` node and choose
one. -/
def rand_delim_of (nodes : List Node) (c : Nat) : Option (Nat × Bytes × Bytes × Nat) :=
  choose
    (nodes.enum.filterMap (fun p =>
      match p.2 with
      | Node.Delim s r e => some (p.1, s, e, r)
      | _ => none))
    c

/-- Model of `Vec::swap` (as called with valid indices). -/
def swapList {α : Type} (l : List α) (i j : Nat) : List α :=
  match l.get? i, l.get? j with
  | some x, some y => (l.set i y).set j x
  | _, _ => l

/-- Model of `rand 0.3`'s `Rng::shuffle` inner loop (Fisher-Yates walking
down from the end); each swap partner is drawn from the seed list. -/
def fyGo {α : Type} : Nat → List Nat → List α → List α
  | 0, _, l => l
  | 1, _, l => l
  | i+2, seeds, l => fyGo (i + 1) seeds.tail (swapList l (i + 1) (seeds.headD 0 % (i + 2)))

/-- Model of `rand 0.3`'s `Rng::shuffle`. -/
def fisherYates {α : Type} (seeds : List Nat) (l : List α) : List α :=
  fyGo l.length seeds l

/-- fuzz.rs: `FuzzFile::swap_ranges`; `seeds` drives the index sampling. -/
def FuzzFile.swap_ranges (ff : FuzzFile) (seeds : List Nat) : FuzzFile × Bool :=
  match rand_indices ff.ranges.length seeds with
  | some p => ({ ff with ranges := swapList ff.ranges p.1 p.2 }, true)
  | none => (ff, false)

/-- fuzz.rs: `FuzzFile::shuffle_range`; `c` picks the range, `seeds`
drives the shuffle. -/
def FuzzFile.shuffle_range (ff : FuzzFile) (c : Nat) (seeds : List Nat) :
    FuzzFile × Bool :=
  match chooseIdx ff.ranges c with
  | some i =>
      ({ ff with ranges := ff.ranges.set i (fisherYates seeds (ff.ranges.getD i [])) },
        true)
  | none => (ff, false)

/-- fuzz.rs: `FuzzFile::duplicate_range`; `c` picks the range, `k` drives
`gen_range`; `none` models the `gen_range(1, max)` panic at `max ≤ 1`. -/
def FuzzFile.duplicate_range (ff : FuzzFile) (c k max_duplications : Nat) :
    Option (FuzzFile × Bool) :=
  if max_duplications < 1 then some (ff, false)
  else
    match chooseIdx ff.ranges c with
    | some i =>
        match gen_range 1 max_duplications k with
        | some num_duplications =>
            let range := ff.ranges.getD i []
            let extension := (List.replicate num_duplications range).flatten
            some ({ ff with ranges := ff.ranges.set i (range ++ extension) }, true)
        | none => none
    | none => some (ff, false)

/-- fuzz.rs: `FuzzFile::duplicate_root_node` — both indices are drawn
from the RANGE arena but `dst` indexes the NODE arena, and `src` is stored
as a NodeRef inside the new range; `none` models the out-of-bounds panic
of `nodes[dst_index]`. -/
def FuzzFile.duplicate_root_node (ff : FuzzFile) (seeds : List Nat) :
    Option (FuzzFile × Bool) :=
  match rand_indices ff.ranges.length seeds with
  | some p =>
      if p.2 < ff.nodes.length then
        let dup_node := ff.nodes.getD p.2 (.Token [])
        let noderef := ff.nodes.length
        let nodes2 := ff.nodes ++ [dup_node]
        let rangeref := ff.ranges.length
        some ({ ff with
          nodes := nodes2.set p.2 (.Range rangeref),
          ranges := ff.ranges ++ [[noderef, p.1]] }, true)
      else none
  | none => some (ff, false)

/-- fuzz.rs: `FuzzFile::remove_delim`. -/
def FuzzFile.remove_delim (ff : FuzzFile) (c : Nat) : FuzzFile × Bool :=
  match rand_delim_of ff.nodes c with
  | some d => ({ ff with nodes := ff.nodes.set d.1 (.Range d.2.2.2) }, true)
  | none => (ff, false)

/-- fuzz.rs: `FuzzFile::swap_delim` — transpose the open and close
patterns of the chosen delim node. -/
def FuzzFile.swap_delim (ff : FuzzFile) (c : Nat) : FuzzFile × Bool :=
  match rand_delim_of ff.nodes c with
  | some d => ({ ff with nodes := ff.nodes.set d.1 (.Delim d.2.2.1 d.2.2.2 d.2.1) }, true)
  | none => (ff, false)

/-- fuzz.rs: `FuzzFile::nest_delim`. -/
def FuzzFile.nest_delim (ff : FuzzFile) (c : Nat) : FuzzFile × Bool :=
  match rand_delim_of ff.nodes c with
  | some d =>
      let nested_noderef := ff.nodes.length
      let nodes2 := ff.nodes ++ [Node.Delim d.2.1 d.2.2.2 d.2.2.1]
      let nested_rangeref := ff.ranges.length
      ({ ff with
        nodes := nodes2.set d.1 (.Delim d.2.1 nested_rangeref d.2.2.1),
        ranges := ff.ranges ++ [[nested_noderef]] }, true)
  | none => (ff, false)

/-- fuzz.rs: `FuzzFile::empty_delim`. -/
def FuzzFile.empty_delim (ff : FuzzFile) (c : Nat) : FuzzFile × Bool :=
  match rand_delim_of ff.nodes c with
  | some d =>
      ({ ff with
        nodes := ff.nodes.set d.1 (.Delim d.2.1 ff.ranges.length d.2.2.1),
        ranges := ff.ranges ++ [[]] }, true)
  | none => (ff, false)

/-- fuzz.rs: the `FuzzFile::rand_delim` mutator; `c` picks the target
node, `c2` the replacement pair; returns false when the replacement
equals the current pair byte-for-byte. -/
def FuzzFile.rand_delim (ff : FuzzFile) (c c2 : Nat) (delims : List (Bytes × Bytes)) :
    FuzzFile × Bool :=
  if delims.isEmpty then (ff, false)
  else
    match rand_delim_of ff.nodes c with
    | some d =>
        match choose delims c2 with
        | some new_delim =>
            if (new_delim.1, new_delim.2) ≠ (d.2.1, d.2.2.1) then
              ({ ff with
                nodes := ff.nodes.set d.1 (.Delim new_delim.1 d.2.2.2 new_delim.2) },
                true)
            else (ff, false)
        | none => (ff, false)
    | none => (ff, false)

/-- One iteration's worth of PRNG draws for the `fuzz_one` loop: the
action choice and the seeds the chosen mutator consumes. -/
structure Draw where
  act : Nat
  a : Nat
  b : Nat
  seeds : List Nat

/-- fuzz.rs: the body of one `fuzz_one` iteration — pick a mutation from
the enabled catalogue and apply it. -/
def applyAction (config : FuzzConfig) (ff : FuzzFile) (d : Draw) :
    Option (FuzzFile × Bool) :=
  match choose config.valid_actions d.act with
  | some Mutation.DuplicateRange => ff.duplicate_range d.a d.b config.max_duplications
  | some Mutation.DuplicateRootNode => ff.duplicate_root_node d.seeds
  | some Mutation.EmptyDelim => some (ff.empty_delim d.a)
  | some Mutation.NestDelim => some (ff.nest_delim d.a)
  | some Mutation.RandDelim => some (ff.rand_delim d.a d.b config.all_delims)
  | some Mutation.RemoveDelim => some (ff.remove_delim d.a)
  | some Mutation.ShuffleRanges => some (ff.shuffle_range d.a d.seeds)
  | some Mutation.SwapDelim => some (ff.swap_delim d.a)
  | some Mutation.SwapRanges => some (ff.swap_ranges d.seeds)
  | none => some (ff, false)

/-- fuzz.rs: the `for _ in 0..max_mutations` loop of `fuzz_one`,
accumulating `did_mutate`; `none` propagates a mutator panic. -/
def fuzzLoop (config : FuzzConfig) :
    Nat → List Draw → FuzzFile → Bool → Option (FuzzFile × Bool)
  | 0, _, ff, did => some (ff, did)
  | n+1, ds, ff, did =>
      match applyAction config ff (ds.headD ⟨0, 0, 0, []⟩) with
      | some p => fuzzLoop config n ds.tail p.1 (did || p.2)
      | none => none

/-- fuzz.rs: `fuzz_one` — the outer `none` models a mutator panic; the
inner `none` a batch that produced no mutation (emission suppressed). -/
def fuzz_one (parsed : ParsedFile) (config : FuzzConfig) (draws : List Draw) :
    Option (Option FuzzFile) :=
  (fuzzLoop config config.max_mutations draws (FuzzFile.new parsed) false).map
    (fun p => if p.2 then some p.1 else none)

/-- One node's references are in bounds. -/
def nodeRefsOk (ranges_len : Nat) : Node → Bool
  | .Delim _ r _ => r < ranges_len
  | .Range r => r < ranges_len
  | .Token _ => true

/-- Every `NodeRef` in the root or any range and every `RangeRef` in any
node indexes a valid arena entry. -/
def validFF (ff : FuzzFile) : Bool :=
  ff.root.all (fun m => m < ff.nodes.length) &&
  ff.nodes.all (nodeRefsOk ff.ranges.length) &&
  ff.ranges.all (fun r => r.all (fun m => m < ff.nodes.length))

theorem choose_mem {α : Type} (l : List α) (c : Nat) (x : α) (h : choose l c = some x) :
    x ∈ l := by
  unfold choose at h
  by_cases he : l.isEmpty
  · rw [if_pos he] at h; exact absurd h Option.noConfusion
  · rw [if_neg he] at h; exact List.get?_mem h

theorem chooseIdx_lt {α : Type} (l : List α) (c i : Nat) (h : chooseIdx l c = some i) :
    i < l.length := by
  unfold chooseIdx at h
  by_cases he : l.isEmpty
  · rw [if_pos he] at h; exact absurd h Option.noConfusion
  · rw [if_neg he, Option.some.injEq] at h
    have hpos : 0 < l.length := length_pos_of_isEmpty_false l (by simpa using he)
    subst h
    exact Nat.mod_lt c hpos

theorem sample2_lt (len : Nat) (seeds : List Nat) (h : 1 < len) :
    (sample2 len seeds).1 < len ∧ (sample2 len seeds).2 < len := by
  rw [sample2]
  have hgen : ∀ l : List Nat, (∀ i ∈ l, i + 2 < len) → ∀ res : Nat × Nat,
      res.1 < len → res.2 < len →
      ((l.foldl
        (fun res i =>
          if seeds.getD i 0 % (i + 3) = 0 then (i + 2, res.2)
          else if seeds.getD i 0 % (i + 3) = 1 then (res.1, i + 2)
          else res)
        res).1 < len ∧
       (l.foldl
        (fun res i =>
          if seeds.getD i 0 % (i + 3) = 0 then (i + 2, res.2)
          else if seeds.getD i 0 % (i + 3) = 1 then (res.1, i + 2)
          else res)
        res).2 < len) := by
    intro l
    induction l with
    | nil => intro _ res h1 h2; exact ⟨h1, h2⟩
    | cons x xs ih =>
        intro hl res h1 h2
        rw [List.foldl_cons]
        have hx : x + 2 < len := hl x (List.mem_cons_self x xs)
        refine ih (fun i hi => hl i (List.mem_cons_of_mem x hi)) _ ?_ ?_ <;>
          dsimp only <;> split_ifs <;> first | exact h1 | exact h2 | exact hx
  exact hgen (List.range (len - 2))
    (fun i hi => by have := List.mem_range.mp hi; omega) (0, 1) (by omega) h

theorem rand_indices_lt (len : Nat) (seeds : List Nat) (i j : Nat)
    (h : rand_indices len seeds = some (i, j)) :
    i < len ∧ j < len ∧ 1 < len := by
  unfold rand_indices at h
  by_cases hl : len > 1
  · rw [if_pos hl, Option.some.injEq] at h
    obtain ⟨h1, h2⟩ := sample2_lt len seeds hl
    rw [h] at h1 h2
    exact ⟨h1, h2, hl⟩
  · rw [if_neg hl] at h
    exact absurd h Option.noConfusion

theorem rand_delim_of_spec (nodes : List Node) (c i : Nat) (s e : Bytes) (r : Nat)
    (h : rand_delim_of nodes c = some (i, s, e, r)) :
    nodes.get? i = some (.Delim s r e) := by
  have hmem := choose_mem _ c _ h
  obtain ⟨p, hp, hpick⟩ := List.mem_filterMap.mp hmem
  have hget : nodes.get? p.1 = some p.2 := List.mem_enum_iff_get?.mp hp
  cases hnd : p.2 with
  | Delim s2 r2 e2 =>
      rw [hnd] at hpick
      simp only [Option.some.injEq, Prod.mk.injEq] at hpick
      obtain ⟨h1, h2, h3, h4⟩ := hpick
      rw [← h1, hget, hnd, h2, h3, h4]
  | Range r2 => rw [hnd] at hpick; exact absurd hpick Option.noConfusion
  | Token t => rw [hnd] at hpick; exact absurd hpick Option.noConfusion

theorem swapList_mem {α : Type} (l : List α) (i j : Nat) (x : α)
    (h : x ∈ swapList l i j) : x ∈ l := by
  unfold swapList at h
  cases hgi : l.get? i with
  | none => rw [hgi] at h; exact h
  | some xi =>
      cases hgj : l.get? j with
      | none => rw [hgi, hgj] at h; exact h
      | some xj =>
          rw [hgi, hgj] at h
          dsimp only at h
          rcases List.mem_or_eq_of_mem_set h with h2 | h2
          · rcases List.mem_or_eq_of_mem_set h2 with h3 | h3
            · exact h3
            · exact h3 ▸ List.get?_mem hgj
          · exact h2 ▸ List.get?_mem hgi

theorem swapList_length {α : Type} (l : List α) (i j : Nat) :
    (swapList l i j).length = l.length := by
  unfold swapList
  cases hgi : l.get? i <;> cases hgj : l.get? j <;> simp [List.length_set]

theorem fyGo_mem {α : Type} : ∀ (n : Nat) (seeds : List Nat) (l : List α) (x : α),
    x ∈ fyGo n seeds l → x ∈ l := by
  intro n
  induction n using Nat.strong_induction_on with
  | _ n ih =>
    intro seeds l x h
    match n with
    | 0 => exact h
    | 1 => exact h
    | m + 2 =>
        rw [fyGo] at h
        exact swapList_mem _ _ _ x (ih (m + 1) (by omega) seeds.tail _ x h)

theorem fyGo_length {α : Type} : ∀ (n : Nat) (seeds : List Nat) (l : List α),
    (fyGo n seeds l).length = l.length := by
  intro n
  induction n using Nat.strong_induction_on with
  | _ n ih =>
    intro seeds l
    match n with
    | 0 => rfl
    | 1 => rfl
    | m + 2 =>
        rw [fyGo, ih (m + 1) (by omega), swapList_length]

theorem fisherYates_mem {α : Type} (seeds : List Nat) (l : List α) (x : α)
    (h : x ∈ fisherYates seeds l) : x ∈ l :=
  fyGo_mem l.length seeds l x h

theorem fisherYates_length {α : Type} (seeds : List Nat) (l : List α) :
    (fisherYates seeds l).length = l.length :=
  fyGo_length l.length seeds l

/-- Any Delim node anywhere in the arena? -/
def hasDelim (nodes : List Node) : Bool :=
  nodes.any (fun nd =>
    match nd with
    | .Delim _ _ _ => true
    | _ => false)

theorem rand_delim_of_none (nodes : List Node) (c : Nat) (h : hasDelim nodes = false) :
    rand_delim_of nodes c = none := by
  have hempty : ∀ (k : Nat) (ns : List Node), (∀ nd ∈ ns, nd ∈ nodes) →
      (List.filterMap (fun p : Nat × Node =>
        match p.2 with
        | Node.Delim s r e => some (p.1, s, e, r)
        | _ => none) (List.enumFrom k ns)) = [] := by
    intro k ns
    induction ns generalizing k with
    | nil => intro _; rfl
    | cons nd ns2 ih =>
        intro hsub
        rw [List.enumFrom_cons, List.filterMap_cons]
        have hnd : nd ∈ nodes := hsub nd (List.mem_cons_self nd ns2)
        cases hcase : nd with
        | Delim s r e =>
            exfalso
            rw [hcase] at hnd
            have htrue : hasDelim nodes = true := by
              rw [hasDelim, List.any_eq_true]
              refine ⟨Node.Delim s r e, hnd, ?_⟩
              rfl
            rw [h] at htrue
            exact Bool.false_ne_true htrue
        | Range r =>
            dsimp only
            exact ih (k + 1) (fun nd2 h2 => hsub nd2 (List.mem_cons_of_mem nd h2))
        | Token t =>
            dsimp only
            exact ih (k + 1) (fun nd2 h2 => hsub nd2 (List.mem_cons_of_mem nd h2))
  rw [rand_delim_of, List.enum]
  rw [hempty 0 nodes (fun _ h => h)]
  rfl

theorem swap_ranges_noop (ff : FuzzFile) (seeds : List Nat) (ff2 : FuzzFile)
    (h : ff.swap_ranges seeds = (ff2, false)) : ff2 = ff := by
  unfold FuzzFile.swap_ranges at h
  cases hri : rand_indices ff.ranges.length seeds with
  | some p => rw [hri] at h; simp at h
  | none => rw [hri] at h; simp at h; exact h.symm

theorem shuffle_range_noop (ff : FuzzFile) (c : Nat) (seeds : List Nat) (ff2 : FuzzFile)
    (h : ff.shuffle_range c seeds = (ff2, false)) : ff2 = ff := by
  unfold FuzzFile.shuffle_range at h
  cases hci : chooseIdx ff.ranges c with
  | some i => rw [hci] at h; simp at h
  | none => rw [hci] at h; simp at h; exact h.symm

theorem duplicate_range_noop (ff : FuzzFile) (c k m : Nat) (ff2 : FuzzFile)
    (h : ff.duplicate_range c k m = some (ff2, false)) : ff2 = ff := by
  unfold FuzzFile.duplicate_range at h
  by_cases hm : m < 1
  · rw [if_pos hm] at h; simp at h; exact h.symm
  · rw [if_neg hm] at h
    cases hci : chooseIdx ff.ranges c with
    | none => rw [hci] at h; simp at h; exact h.symm
    | some i =>
        rw [hci] at h
        dsimp only at h
        cases hgr : gen_range 1 m k with
        | some nd => rw [hgr] at h; simp at h
        | none => rw [hgr] at h; exact absurd h Option.noConfusion

theorem duplicate_root_node_noop (ff : FuzzFile) (seeds : List Nat) (ff2 : FuzzFile)
    (h : ff.duplicate_root_node seeds = some (ff2, false)) : ff2 = ff := by
  unfold FuzzFile.duplicate_root_node at h
  cases hri : rand_indices ff.ranges.length seeds with
  | some p =>
      rw [hri] at h
      dsimp only at h
      by_cases hd : p.2 < ff.nodes.length
      · rw [if_pos hd] at h; simp at h
      · rw [if_neg hd] at h; exact absurd h Option.noConfusion
  | none => rw [hri] at h; simp at h; exact h.symm

theorem remove_delim_noop (ff : FuzzFile) (c : Nat) (ff2 : FuzzFile)
    (h : ff.remove_delim c = (ff2, false)) : ff2 = ff := by
  unfold FuzzFile.remove_delim at h
  cases hrd : rand_delim_of ff.nodes c with
  | some d => rw [hrd] at h; simp at h
  | none => rw [hrd] at h; simp at h; exact h.symm

theorem swap_delim_noop (ff : FuzzFile) (c : Nat) (ff2 : FuzzFile)
    (h : ff.swap_delim c = (ff2, false)) : ff2 = ff := by
  unfold FuzzFile.swap_delim at h
  cases hrd : rand_delim_of ff.nodes c with
  | some d => rw [hrd] at h; simp at h
  | none => rw [hrd] at h; simp at h; exact h.symm

theorem nest_delim_noop (ff : FuzzFile) (c : Nat) (ff2 : FuzzFile)
    (h : ff.nest_delim c = (ff2, false)) : ff2 = ff := by
  unfold FuzzFile.nest_delim at h
  cases hrd : rand_delim_of ff.nodes c with
  | some d => rw [hrd] at h; simp at h
  | none => rw [hrd] at h; simp at h; exact h.symm

theorem empty_delim_noop (ff : FuzzFile) (c : Nat) (ff2 : FuzzFile)
    (h : ff.empty_delim c = (ff2, false)) : ff2 = ff := by
  unfold FuzzFile.empty_delim at h
  cases hrd : rand_delim_of ff.nodes c with
  | some d => rw [hrd] at h; simp at h
  | none => rw [hrd] at h; simp at h; exact h.symm

theorem rand_delim_noop (ff : FuzzFile) (c c2 : Nat) (delims : List (Bytes × Bytes))
    (ff2 : FuzzFile) (h : ff.rand_delim c c2 delims = (ff2, false)) : ff2 = ff := by
  unfold FuzzFile.rand_delim at h
  by_cases hde : delims.isEmpty
  · rw [if_pos hde] at h; simp at h; exact h.symm
  · rw [if_neg hde] at h
    cases hrd : rand_delim_of ff.nodes c with
    | none => rw [hrd] at h; simp at h; exact h.symm
    | some d =>
        rw [hrd] at h
        dsimp only at h
        cases hch : choose delims c2 with
        | none => rw [hch] at h; simp at h; exact h.symm
        | some nd =>
            rw [hch] at h
            dsimp only at h
            by_cases hne2 : (nd.1, nd.2) ≠ (d.2.1, d.2.2.1)
            · rw [if_pos hne2] at h; simp at h
            · rw [if_neg hne2] at h; simp at h; exact h.symm

theorem swap_ranges_false_of_short (ff : FuzzFile) (seeds : List Nat)
    (h : ff.ranges.length < 2) : (ff.swap_ranges seeds).2 = false := by
  unfold FuzzFile.swap_ranges rand_indices
  rw [if_neg (by omega)]

theorem remove_delim_false_of_no_delim (ff : FuzzFile) (c : Nat)
    (h : hasDelim ff.nodes = false) : (ff.remove_delim c).2 = false := by
  unfold FuzzFile.remove_delim
  rw [rand_delim_of_none ff.nodes c h]

theorem swap_delim_false_of_no_delim (ff : FuzzFile) (c : Nat)
    (h : hasDelim ff.nodes = false) : (ff.swap_delim c).2 = false := by
  unfold FuzzFile.swap_delim
  rw [rand_delim_of_none ff.nodes c h]

theorem nest_delim_false_of_no_delim (ff : FuzzFile) (c : Nat)
    (h : hasDelim ff.nodes = false) : (ff.nest_delim c).2 = false := by
  unfold FuzzFile.nest_delim
  rw [rand_delim_of_none ff.nodes c h]

theorem empty_delim_false_of_no_delim (ff : FuzzFile) (c : Nat)
    (h : hasDelim ff.nodes = false) : (ff.empty_delim c).2 = false := by
  unfold FuzzFile.empty_delim
  rw [rand_delim_of_none ff.nodes c h]

theorem rand_delim_false_of_no_delim (ff : FuzzFile) (c c2 : Nat)
    (delims : List (Bytes × Bytes)) (h : hasDelim ff.nodes = false) :
    (ff.rand_delim c c2 delims).2 = false := by
  unfold FuzzFile.rand_delim
  by_cases hde : delims.isEmpty
  · rw [if_pos hde]
  · rw [if_neg hde, rand_delim_of_none ff.nodes c h]

theorem shuffle_range_snd_iff (ff : FuzzFile) (c : Nat) (seeds : List Nat) :
    (ff.shuffle_range c seeds).2 = true ↔ ff.ranges ≠ [] := by
  unfold FuzzFile.shuffle_range chooseIdx
  by_cases he : ff.ranges.isEmpty
  · rw [if_pos he]
    dsimp only
    have := List.isEmpty_iff.mp he
    simp [this]
  · rw [if_neg he]
    dsimp only
    have : ff.ranges ≠ [] := fun hx => he (by simp [hx])
    simp [this]

theorem getD_mem {α : Type} (l : List α) (i : Nat) (d : α) (h : i < l.length) :
    l.getD i d ∈ l := by
  rw [List.getD_eq_getElem l d h]
  exact List.getElem_mem h

theorem validFF_eq_true_iff (ff : FuzzFile) : validFF ff = true ↔
    ((∀ m ∈ ff.root, m < ff.nodes.length) ∧
     (∀ nd ∈ ff.nodes, nodeRefsOk ff.ranges.length nd = true) ∧
     (∀ rg ∈ ff.ranges, ∀ m ∈ rg, m < ff.nodes.length)) := by
  simp [validFF, List.all_eq_true, Bool.and_eq_true, and_assoc]

theorem nodeRefsOk_mono (rl rl2 : Nat) (nd : Node) (h : nodeRefsOk rl nd = true)
    (hle : rl ≤ rl2) : nodeRefsOk rl2 nd = true := by
  cases nd with
  | Delim s r e => simp [nodeRefsOk] at h ⊢; omega
  | Range r => simp [nodeRefsOk] at h ⊢; omega
  | Token t => rfl

/-- On a reference-valid file the serializer never aborts: every noderef
hits the node arena and every rangeref the seen vector, which stays as
long as the range arena throughout the recursion. -/
theorem serialize_ok_of_valid_aux (ff : FuzzFile) (hv : validFF ff = true) (k : Nat) :
    ∀ seen : SerializeState, unseenCount seen = k →
      seen.length = ff.ranges.length →
      (∀ n, n < ff.nodes.length → FuzzFile.serialize_ok ff seen n = true) ∧
      (∀ l, (∀ m ∈ l, m < ff.nodes.length) →
        FuzzFile.serialize_list_ok ff seen l = true) := by
  obtain ⟨hv1, hv2, hv3⟩ := (validFF_eq_true_iff ff).mp hv
  induction k using Nat.strong_induction_on with
  | _ k ih =>
    intro seen hk hlen
    have hnode : ∀ n, n < ff.nodes.length →
        FuzzFile.serialize_ok ff seen n = true := by
      intro n hn
      cases hget : ff.nodes.get? n with
      | none =>
          exact absurd hn (Nat.not_lt.mpr (List.get?_eq_none.mp hget))
      | some nd =>
          have hok := hv2 nd (List.get?_mem hget)
          cases nd with
          | Token t => exact serialize_ok_token ff seen n t hget
          | Range r =>
              simp only [nodeRefsOk, decide_eq_true_eq] at hok
              rw [serialize_ok_range ff seen n r hget]
              by_cases hg : r < seen.length ∧ seen.getD r false = false
              · rw [if_pos hg]
                have hlt : unseenCount (seen.set r true) < k :=
                  hk ▸ unseenCount_set_lt seen r hg.1 hg.2
                exact (ih _ hlt (seen.set r true) rfl
                    (by rw [List.length_set, hlen])).2
                  (ff.ranges.getD r []) (hv3 _ (getD_mem ff.ranges r [] hok))
              · rw [if_neg hg]
                simp only [decide_eq_true_eq]
                omega
          | Delim s r e =>
              simp only [nodeRefsOk, decide_eq_true_eq] at hok
              rw [serialize_ok_delim ff seen n s r e hget]
              by_cases hg : r < seen.length ∧ seen.getD r false = false
              · rw [if_pos hg]
                have hlt : unseenCount (seen.set r true) < k :=
                  hk ▸ unseenCount_set_lt seen r hg.1 hg.2
                exact (ih _ hlt (seen.set r true) rfl
                    (by rw [List.length_set, hlen])).2
                  (ff.ranges.getD r []) (hv3 _ (getD_mem ff.ranges r [] hok))
              · rw [if_neg hg]
                simp only [decide_eq_true_eq]
                omega
    refine ⟨hnode, ?_⟩
    intro l hl
    induction l with
    | nil => exact serialize_list_ok_nil ff seen
    | cons m ms ihl =>
        rw [serialize_list_ok_cons, hnode m (hl m (List.mem_cons_self m ms)),
          ihl (fun x hx => hl x (List.mem_cons_of_mem m hx))]
        rfl

/-- On a reference-valid file `serialize` completes for every sink. -/
theorem serialize_root_ok_of_valid (ff : FuzzFile) (hv : validFF ff = true) :
    FuzzFile.serialize_root_ok ff = true := by
  obtain ⟨hv1, _, _⟩ := (validFF_eq_true_iff ff).mp hv
  exact (serialize_ok_of_valid_aux ff hv (unseenCount (SerializeState.new ff.ranges))
    (SerializeState.new ff.ranges) rfl (by simp [SerializeState.new])).2 ff.root hv1

theorem swap_ranges_valid (ff : FuzzFile) (seeds : List Nat) (h : validFF ff = true) :
    validFF (ff.swap_ranges seeds).1 = true := by
  rw [validFF_eq_true_iff] at h
  obtain ⟨h1, h2, h3⟩ := h
  unfold FuzzFile.swap_ranges
  cases hri : rand_indices ff.ranges.length seeds with
  | none => dsimp only; rw [validFF_eq_true_iff]; exact ⟨h1, h2, h3⟩
  | some p =>
      dsimp only
      rw [validFF_eq_true_iff]
      refine ⟨h1, ?_, ?_⟩
      · intro nd hnd
        rw [swapList_length]
        exact h2 nd hnd
      · intro rg hrg m hm
        exact h3 rg (swapList_mem _ _ _ rg hrg) m hm

theorem shuffle_range_valid (ff : FuzzFile) (c : Nat) (seeds : List Nat)
    (h : validFF ff = true) : validFF (ff.shuffle_range c seeds).1 = true := by
  rw [validFF_eq_true_iff] at h
  obtain ⟨h1, h2, h3⟩ := h
  unfold FuzzFile.shuffle_range
  cases hci : chooseIdx ff.ranges c with
  | none => dsimp only; rw [validFF_eq_true_iff]; exact ⟨h1, h2, h3⟩
  | some i =>
      have hilt := chooseIdx_lt ff.ranges c i hci
      dsimp only
      rw [validFF_eq_true_iff]
      refine ⟨h1, ?_, ?_⟩
      · intro nd hnd
        rw [List.length_set]
        exact h2 nd hnd
      · intro rg hrg m hm
        rcases List.mem_or_eq_of_mem_set hrg with h4 | h4
        · exact h3 rg h4 m hm
        · subst h4
          exact h3 (ff.ranges.getD i []) (getD_mem ff.ranges i [] hilt)
            m (fisherYates_mem seeds _ m hm)

theorem duplicate_range_valid (ff : FuzzFile) (c k m2 : Nat) (ff2 : FuzzFile) (r : Bool)
    (h : validFF ff = true) (hd : ff.duplicate_range c k m2 = some (ff2, r)) :
    validFF ff2 = true := by
  rw [validFF_eq_true_iff] at h
  obtain ⟨h1, h2, h3⟩ := h
  unfold FuzzFile.duplicate_range at hd
  by_cases hm : m2 < 1
  · rw [if_pos hm] at hd
    rw [Option.some.injEq, Prod.mk.injEq] at hd
    rw [← hd.1, validFF_eq_true_iff]
    exact ⟨h1, h2, h3⟩
  · rw [if_neg hm] at hd
    cases hci : chooseIdx ff.ranges c with
    | none =>
        rw [hci] at hd
        rw [Option.some.injEq, Prod.mk.injEq] at hd
        rw [← hd.1, validFF_eq_true_iff]
        exact ⟨h1, h2, h3⟩
    | some i =>
        have hilt := chooseIdx_lt ff.ranges c i hci
        rw [hci] at hd
        dsimp only at hd
        cases hgr : gen_range 1 m2 k with
        | none => rw [hgr] at hd; exact absurd hd Option.noConfusion
        | some nd =>
            rw [hgr] at hd
            rw [Option.some.injEq, Prod.mk.injEq] at hd
            rw [← hd.1, validFF_eq_true_iff]
            refine ⟨h1, ?_, ?_⟩
            · intro n2 hn2
              rw [List.length_set]
              exact h2 n2 hn2
            · intro rg hrg m hm
              rcases List.mem_or_eq_of_mem_set hrg with h4 | h4
              · exact h3 rg h4 m hm
              · subst h4
                have hbase : ∀ x ∈ ff.ranges.getD i [], x < ff.nodes.length :=
                  h3 _ (getD_mem ff.ranges i [] hilt)
                rcases List.mem_append.mp hm with h5 | h5
                · exact hbase m h5
                · obtain ⟨rep, hrep, hmrep⟩ := List.mem_flatten.mp h5
                  rw [(List.mem_replicate.mp hrep).2] at hmrep
                  exact hbase m hmrep

theorem duplicate_root_node_valid (ff : FuzzFile) (seeds : List Nat) (ff2 : FuzzFile)
    (r : Bool) (h : validFF ff = true) (hle : ff.ranges.length ≤ ff.nodes.length)
    (hd : ff.duplicate_root_node seeds = some (ff2, r)) : validFF ff2 = true := by
  rw [validFF_eq_true_iff] at h
  obtain ⟨h1, h2, h3⟩ := h
  unfold FuzzFile.duplicate_root_node at hd
  cases hri : rand_indices ff.ranges.length seeds with
  | none =>
      rw [hri] at hd
      rw [Option.some.injEq, Prod.mk.injEq] at hd
      rw [← hd.1, validFF_eq_true_iff]
      exact ⟨h1, h2, h3⟩
  | some p =>
      obtain ⟨hp1, hp2, _⟩ := rand_indices_lt ff.ranges.length seeds p.1 p.2
        (by rw [hri])
      rw [hri] at hd
      dsimp only at hd
      rw [if_pos (Nat.lt_of_lt_of_le hp2 hle)] at hd
      rw [Option.some.injEq, Prod.mk.injEq] at hd
      rw [← hd.1, validFF_eq_true_iff]
      have hlen2 : ((ff.nodes ++ [ff.nodes.getD p.2 (Node.Token [])]).set p.2
          (Node.Range ff.ranges.length)).length = ff.nodes.length + 1 := by
        rw [List.length_set, List.length_append, List.length_singleton]
      refine ⟨?_, ?_, ?_⟩
      · intro m hm
        rw [hlen2]
        exact Nat.lt_succ_of_lt (h1 m hm)
      · intro nd hnd
        rw [List.length_append, List.length_singleton]
        rcases List.mem_or_eq_of_mem_set hnd with h4 | h4
        · rcases List.mem_append.mp h4 with h5 | h5
          · exact nodeRefsOk_mono _ _ nd (h2 nd h5) (by omega)
          · rw [List.mem_singleton.mp h5]
            have : ff.nodes.getD p.2 (Node.Token []) ∈ ff.nodes :=
              getD_mem ff.nodes p.2 _ (Nat.lt_of_lt_of_le hp2 hle)
            exact nodeRefsOk_mono _ _ _ (h2 _ this) (by omega)
        · subst h4
          simp [nodeRefsOk]
      · intro rg hrg m hm
        rw [hlen2]
        rcases List.mem_append.mp hrg with h4 | h4
        · exact Nat.lt_succ_of_lt (h3 rg h4 m hm)
        · rw [List.mem_singleton.mp h4] at hm
          rcases List.mem_cons.mp hm with h5 | h5
          · omega
          · rw [List.mem_singleton.mp h5]
            omega

theorem remove_delim_valid (ff : FuzzFile) (c : Nat) (h : validFF ff = true) :
    validFF (ff.remove_delim c).1 = true := by
  rw [validFF_eq_true_iff] at h
  obtain ⟨h1, h2, h3⟩ := h
  unfold FuzzFile.remove_delim
  cases hrd : rand_delim_of ff.nodes c with
  | none => dsimp only; rw [validFF_eq_true_iff]; exact ⟨h1, h2, h3⟩
  | some d =>
      have hspec := rand_delim_of_spec ff.nodes c d.1 d.2.1 d.2.2.1 d.2.2.2 (by rw [hrd])
      have hok := h2 _ (List.get?_mem hspec)
      simp only [nodeRefsOk, decide_eq_true_eq] at hok
      dsimp only
      rw [validFF_eq_true_iff]
      refine ⟨?_, ?_, ?_⟩
      · intro m hm
        rw [List.length_set]
        exact h1 m hm
      · intro nd hnd
        rcases List.mem_or_eq_of_mem_set hnd with h4 | h4
        · exact h2 nd h4
        · subst h4
          simpa [nodeRefsOk] using hok
      · intro rg hrg m hm
        rw [List.length_set]
        exact h3 rg hrg m hm

theorem swap_delim_valid (ff : FuzzFile) (c : Nat) (h : validFF ff = true) :
    validFF (ff.swap_delim c).1 = true := by
  rw [validFF_eq_true_iff] at h
  obtain ⟨h1, h2, h3⟩ := h
  unfold FuzzFile.swap_delim
  cases hrd : rand_delim_of ff.nodes c with
  | none => dsimp only; rw [validFF_eq_true_iff]; exact ⟨h1, h2, h3⟩
  | some d =>
      have hspec := rand_delim_of_spec ff.nodes c d.1 d.2.1 d.2.2.1 d.2.2.2 (by rw [hrd])
      have hok := h2 _ (List.get?_mem hspec)
      simp only [nodeRefsOk, decide_eq_true_eq] at hok
      dsimp only
      rw [validFF_eq_true_iff]
      refine ⟨?_, ?_, ?_⟩
      · intro m hm
        rw [List.length_set]
        exact h1 m hm
      · intro nd hnd
        rcases List.mem_or_eq_of_mem_set hnd with h4 | h4
        · exact h2 nd h4
        · subst h4
          simpa [nodeRefsOk] using hok
      · intro rg hrg m hm
        rw [List.length_set]
        exact h3 rg hrg m hm

theorem nest_delim_valid (ff : FuzzFile) (c : Nat) (h : validFF ff = true) :
    validFF (ff.nest_delim c).1 = true := by
  rw [validFF_eq_true_iff] at h
  obtain ⟨h1, h2, h3⟩ := h
  unfold FuzzFile.nest_delim
  cases hrd : rand_delim_of ff.nodes c with
  | none => dsimp only; rw [validFF_eq_true_iff]; exact ⟨h1, h2, h3⟩
  | some d =>
      have hspec := rand_delim_of_spec ff.nodes c d.1 d.2.1 d.2.2.1 d.2.2.2 (by rw [hrd])
      have hok := h2 _ (List.get?_mem hspec)
      simp only [nodeRefsOk, decide_eq_true_eq] at hok
      dsimp only
      rw [validFF_eq_true_iff]
      have hlen2 : ((ff.nodes ++ [Node.Delim d.2.1 d.2.2.2 d.2.2.1]).set d.1
          (Node.Delim d.2.1 ff.ranges.length d.2.2.1)).length = ff.nodes.length + 1 := by
        rw [List.length_set, List.length_append, List.length_singleton]
      refine ⟨?_, ?_, ?_⟩
      · intro m hm
        rw [hlen2]
        exact Nat.lt_succ_of_lt (h1 m hm)
      · intro nd hnd
        rw [List.length_append, List.length_singleton]
        rcases List.mem_or_eq_of_mem_set hnd with h4 | h4
        · rcases List.mem_append.mp h4 with h5 | h5
          · exact nodeRefsOk_mono _ _ nd (h2 nd h5) (by omega)
          · rw [List.mem_singleton.mp h5]
            simp only [nodeRefsOk, decide_eq_true_eq]
            omega
        · subst h4
          simp only [nodeRefsOk, decide_eq_true_eq]
          omega
      · intro rg hrg m hm
        rw [hlen2]
        rcases List.mem_append.mp hrg with h4 | h4
        · exact Nat.lt_succ_of_lt (h3 rg h4 m hm)
        · rw [List.mem_singleton.mp h4] at hm
          rw [List.mem_singleton.mp hm]
          omega

theorem empty_delim_valid (ff : FuzzFile) (c : Nat) (h : validFF ff = true) :
    validFF (ff.empty_delim c).1 = true := by
  rw [validFF_eq_true_iff] at h
  obtain ⟨h1, h2, h3⟩ := h
  unfold FuzzFile.empty_delim
  cases hrd : rand_delim_of ff.nodes c with
  | none => dsimp only; rw [validFF_eq_true_iff]; exact ⟨h1, h2, h3⟩
  | some d =>
      dsimp only
      rw [validFF_eq_true_iff]
      refine ⟨?_, ?_, ?_⟩
      · intro m hm
        rw [List.length_set]
        exact h1 m hm
      · intro nd hnd
        rw [List.length_append, List.length_singleton]
        rcases List.mem_or_eq_of_mem_set hnd with h4 | h4
        · exact nodeRefsOk_mono _ _ nd (h2 nd h4) (by omega)
        · subst h4
          simp only [nodeRefsOk, decide_eq_true_eq]
          omega
      · intro rg hrg m hm
        rw [List.length_set]
        rcases List.mem_append.mp hrg with h4 | h4
        · exact h3 rg h4 m hm
        · rw [List.mem_singleton.mp h4] at hm
          exact absurd hm (List.not_mem_nil m)

theorem rand_delim_valid (ff : FuzzFile) (c c2 : Nat) (delims : List (Bytes × Bytes))
    (h : validFF ff = true) : validFF (ff.rand_delim c c2 delims).1 = true := by
  rw [validFF_eq_true_iff] at h
  obtain ⟨h1, h2, h3⟩ := h
  unfold FuzzFile.rand_delim
  by_cases hde : delims.isEmpty
  · rw [if_pos hde]; rw [validFF_eq_true_iff]; exact ⟨h1, h2, h3⟩
  · rw [if_neg hde]
    cases hrd : rand_delim_of ff.nodes c with
    | none => dsimp only; rw [validFF_eq_true_iff]; exact ⟨h1, h2, h3⟩
    | some d =>
        have hspec := rand_delim_of_spec ff.nodes c d.1 d.2.1 d.2.2.1 d.2.2.2 (by rw [hrd])
        have hok := h2 _ (List.get?_mem hspec)
        simp only [nodeRefsOk, decide_eq_true_eq] at hok
        dsimp only
        cases hch : choose delims c2 with
        | none => rw [validFF_eq_true_iff]; exact ⟨h1, h2, h3⟩
        | some nd2 =>
            dsimp only
            by_cases hne2 : (nd2.1, nd2.2) ≠ (d.2.1, d.2.2.1)
            · rw [if_pos hne2]
              rw [validFF_eq_true_iff]
              refine ⟨?_, ?_, ?_⟩
              · intro m hm
                rw [List.length_set]
                exact h1 m hm
              · intro nd hnd
                rcases List.mem_or_eq_of_mem_set hnd with h4 | h4
                · exact h2 nd h4
                · subst h4
                  simpa [nodeRefsOk] using hok
              · intro rg hrg m hm
                rw [List.length_set]
                exact h3 rg hrg m hm
            · rw [if_neg hne2]
              rw [validFF_eq_true_iff]
              exact ⟨h1, h2, h3⟩

/-- The coupling between the fixed-capacity sink and the growable sink
after the same pushes: the offset is the capacity-capped total length and
the written prefix agrees with the growable output. -/
def SliceRel (cap : Nat) (sl : SliceSerializer) (v : Bytes) : Prop :=
  sl.slice.length = cap ∧ sl.cur_offset = min cap v.length ∧
  sl.slice.take sl.cur_offset = v.take sl.cur_offset

theorem push_rel (cap : Nat) (sl : SliceSerializer) (v t : Bytes)
    (h : SliceRel cap sl v) : SliceRel cap (SerializeInto.push sl t) (v ++ t) := by
  obtain ⟨hlen, hoff, htake⟩ := h
  rw [push_slice]
  dsimp only
  by_cases hk : 0 < min (sl.slice.length - sl.cur_offset) t.length
  · rw [if_pos hk]
    rw [hlen] at hk ⊢
    have hvoff : sl.cur_offset = v.length ∧ v.length < cap := by omega
    have hkle : min (cap - sl.cur_offset) t.length ≤ t.length := by omega
    have hkcap : sl.cur_offset + min (cap - sl.cur_offset) t.length ≤ cap := by omega
    refine ⟨?_, ?_, ?_⟩
    · simp only [List.length_append, List.length_take, List.length_drop, hlen]
      omega
    · simp only [List.length_append]
      omega
    · have hv := hvoff.1
      rw [hv] at htake ⊢
      have hB2 : (t.take (min (cap - v.length) t.length)).length =
          min (cap - v.length) t.length := by
        simp only [List.length_take]
        omega
      have hA2 : (sl.slice.take v.length).length = v.length := by
        simp only [List.length_take, hlen]
        omega
      have hstep := @List.take_append Nat (sl.slice.take v.length)
        (t.take (min (cap - v.length) t.length) ++
          sl.slice.drop (v.length + min (cap - v.length) t.length))
        (min (cap - v.length) t.length)
      rw [hA2] at hstep
      have hrhs := @List.take_append Nat v t (min (cap - v.length) t.length)
      have htap : (t.take (min (cap - v.length) t.length) ++
          sl.slice.drop (v.length + min (cap - v.length) t.length)).take
            (min (cap - v.length) t.length) =
          (t.take (min (cap - v.length) t.length)).take
            (min (cap - v.length) t.length) :=
        List.take_append_of_le_length (le_of_eq hB2.symm)
      have htt : (t.take (min (cap - v.length) t.length)).take
          (min (cap - v.length) t.length) = t.take (min (cap - v.length) t.length) :=
        List.take_of_length_le (le_of_eq hB2)
      rw [List.append_assoc, hstep, hrhs, htap, htt, htake, List.take_length]
  · rw [if_neg hk]
    rw [hlen] at hk
    refine ⟨hlen, ?_, ?_⟩
    · simp only [List.length_append]
      omega
    · rw [htake, List.take_append_of_le_length (by omega)]

theorem foldl_push_slice_rel (tr : List Bytes) : ∀ (cap : Nat) (sl : SliceSerializer)
    (v : Bytes), SliceRel cap sl v →
      SliceRel cap (tr.foldl SerializeInto.push sl) (v ++ tr.flatten) := by
  induction tr with
  | nil => intro cap sl v h; simpa using h
  | cons t ts ih =>
      intro cap sl v h
      have h2 := ih cap (SerializeInto.push sl t) (v ++ t) (push_rel cap sl v t h)
      simpa [List.append_assoc] using h2

/-- The fixed-capacity sink truncates: it never writes past its capacity
and the written prefix equals the growable sink's output up to that
length. -/
theorem slice_contract (ff : FuzzFile) (slice : Bytes) :
    (serializeSlice ff slice).bytes_written ≤ slice.length ∧
    (serializeSlice ff slice).slice.take (serializeSlice ff slice).bytes_written =
      (serializeVec ff).take (serializeSlice ff slice).bytes_written := by
  have h0 : SliceRel slice.length (SliceSerializer.new slice) [] :=
    ⟨rfl, by simp [SliceSerializer.new], by simp [SliceSerializer.new]⟩
  have htr := foldl_push_slice_rel (FuzzFile.serialize ff (S := List Bytes) [])
    slice.length (SliceSerializer.new slice) [] h0
  have heq : serializeSlice ff slice =
      (FuzzFile.serialize ff (S := List Bytes) []).foldl SerializeInto.push
        (SliceSerializer.new slice) := by
    rw [serializeSlice, serialize_eq_trace]
  rw [heq, serializeVec_eq_trace]
  obtain ⟨hl, ho, ht⟩ := htr
  simp only [List.nil_append] at ho ht
  refine ⟨?_, ht⟩
  rw [SliceSerializer.bytes_written, ho]
  omega

theorem flatten_replicate_length {α : Type} (rg : List α) :
    ∀ nd : Nat, ((List.replicate nd rg).flatten).length = nd * rg.length := by
  intro nd
  induction nd with
  | zero => simp
  | succ k ih =>
      rw [List.replicate_succ, List.flatten_cons, List.length_append, ih]
      ring

/-- With `max_duplications ≥ 2` and a non-empty range arena,
`duplicate_range` appends `nd ∈ [1, max)` concatenated copies of the
chosen range to itself, multiplying its length by `nd + 1`. -/
theorem duplicate_range_big (ff : FuzzFile) (c k m : Nat) (hm : 2 ≤ m)
    (hne : ff.ranges ≠ []) :
    ∃ i nd, i < ff.ranges.length ∧ 1 ≤ nd ∧ nd < m ∧
      ff.duplicate_range c k m = some ({ ff with
        ranges := ff.ranges.set i ((ff.ranges.getD i []) ++
          (List.replicate nd (ff.ranges.getD i [])).flatten) }, true) ∧
      ((ff.ranges.set i ((ff.ranges.getD i []) ++
        (List.replicate nd (ff.ranges.getD i [])).flatten)).getD i []).length =
        (ff.ranges.getD i []).length * (nd + 1) := by
  have hlen : 0 < ff.ranges.length := List.length_pos.mpr hne
  refine ⟨c % ff.ranges.length, 1 + k % (m - 1), Nat.mod_lt c hlen, by omega, ?_, ?_, ?_⟩
  · have : k % (m - 1) < m - 1 := Nat.mod_lt k (by omega)
    omega
  · unfold FuzzFile.duplicate_range
    rw [if_neg (by omega)]
    have hci : chooseIdx ff.ranges c = some (c % ff.ranges.length) := by
      unfold chooseIdx
      rw [if_neg (fun h => hne (List.isEmpty_iff.mp h))]
    rw [hci]
    dsimp only
    have hgr : gen_range 1 m k = some (1 + k % (m - 1)) := by
      unfold gen_range
      rw [if_pos (by omega)]
    rw [hgr]
  · have hset : (ff.ranges.set (c % ff.ranges.length)
        ((ff.ranges.getD (c % ff.ranges.length) []) ++
          (List.replicate (1 + k % (m - 1))
            (ff.ranges.getD (c % ff.ranges.length) [])).flatten)).getD
        (c % ff.ranges.length) [] =
        (ff.ranges.getD (c % ff.ranges.length) []) ++
          (List.replicate (1 + k % (m - 1))
            (ff.ranges.getD (c % ff.ranges.length) [])).flatten := by
      rw [List.getD_eq_getElem _ _
        (by rw [List.length_set]; exact Nat.mod_lt c hlen)]
      simp [List.getElem_set_self]
    rw [hset, List.length_append, flatten_replicate_length]
    ring

/-- The delimiter-only example grammar of the spec, `delims = [("<<", ">>")]`. -/
def gDelims : Grammar := grammarFromLists [([60, 60], [62, 62])] [] []

/-- The same with whitespace pattern a single space. -/
def gWS : Grammar := grammarFromLists [([60, 60], [62, 62])] [] [[32]]

/-- The parse of `1<<2>>3` under `gDelims`. -/
def pfEx : ParsedFile :=
  ⟨[0, 2, 3],
   [.Token [49], .Token [50], .Delim [60, 60] 0 [62, 62], .Token [51]],
   [[1]]⟩

/-- A fully valid file whose range arena (4 entries) is longer than its
node arena (2 entries). -/
def ffWide : FuzzFile := ⟨[0], [.Token [97], .Token [98]], [[0], [0], [0], [0]]⟩

/-- A minimal valid file: one token node, one range. -/
def ffOne : FuzzFile := ⟨[0], [.Token [97]], [[0]]⟩

/-- C1: Round-trip identity — for every grammar `g` and byte buffer `b`,
whenever the scan loop of `slurp(g, b)` finishes (over any fuel, which
covers every run the Rust loop completes), serializing the unmutated
`FuzzFile` view of the resulting `ParsedFile` into the growable sink
yields exactly `b`, byte-for-byte. -/
theorem C1_round_trip_identity (g : Grammar) (b : Bytes) (fuel : Nat) (pf : ParsedFile)
    (h : slurpWith g b fuel = some pf) : serializeVec (FuzzFile.new pf) = b :=
  slurp_roundTrip g b fuel pf h

theorem C1_round_trip_identity_witness :
    slurpWith gDelims [49, 60, 60, 50, 62, 62, 51] 8 = some pfEx ∧
    serializeVec (FuzzFile.new pfEx) = [49, 60, 60, 50, 62, 62, 51] :=
  ⟨by decide,
   C1_round_trip_identity gDelims [49, 60, 60, 50, 62, 62, 51] 8 pfEx (by decide)⟩

/-- C2 as stated is false: `ffWide` has only valid references, yet
`DuplicateRootNode` — whose two indices are reservoir-sampled from the
four-entry range arena (seeds `[2, 0]`: element `2` draws `k = 2`, a
no-op, and element `3` draws `k = 0` and lands in reservoir slot 0,
giving `(src, dst) = (3, 1)`) — returns `true` and stores `src = 3` as a
NodeRef in the new range, out of bounds for the three-entry node arena. -/
theorem C2_reference_validity_counterexample :
    validFF ffWide = true ∧
    FuzzFile.duplicate_root_node ffWide [2, 0] =
      some (⟨[0], [.Token [97], .Range 4, .Token [98]],
        [[0], [0], [0], [0], [2, 3]]⟩, true) ∧
    validFF ⟨[0], [.Token [97], .Range 4, .Token [98]],
      [[0], [0], [0], [0], [2, 3]]⟩ = false :=
  ⟨by decide, by decide, by decide⟩

/-- C2 amended: on a FuzzFile with valid references, every mutator
application that returns preserves reference validity, provided — for
`DuplicateRootNode`, whose random indices come from the range arena but
index the node arena — that the range arena is no longer than the node
arena. -/
theorem C2_reference_validity_amended (ff : FuzzFile) (h : validFF ff = true) :
    (∀ sa ff2 r, ff.ranges.length ≤ ff.nodes.length →
      ff.duplicate_root_node sa = some (ff2, r) → validFF ff2 = true) ∧
    (∀ sa, validFF (ff.swap_ranges sa).1 = true) ∧
    (∀ c seeds, validFF (ff.shuffle_range c seeds).1 = true) ∧
    (∀ c k m ff2 r, ff.duplicate_range c k m = some (ff2, r) → validFF ff2 = true) ∧
    (∀ c, validFF (ff.remove_delim c).1 = true) ∧
    (∀ c, validFF (ff.swap_delim c).1 = true) ∧
    (∀ c, validFF (ff.nest_delim c).1 = true) ∧
    (∀ c, validFF (ff.empty_delim c).1 = true) ∧
    (∀ c c2 ds, validFF (ff.rand_delim c c2 ds).1 = true) :=
  ⟨fun sa ff2 r hle hd => duplicate_root_node_valid ff sa ff2 r h hle hd,
   fun sa => swap_ranges_valid ff sa h,
   fun c seeds => shuffle_range_valid ff c seeds h,
   fun c k m ff2 r hd => duplicate_range_valid ff c k m ff2 r h hd,
   fun c => remove_delim_valid ff c h,
   fun c => swap_delim_valid ff c h,
   fun c => nest_delim_valid ff c h,
   fun c => empty_delim_valid ff c h,
   fun c c2 ds => rand_delim_valid ff c c2 ds h⟩

theorem C2_reference_validity_amended_witness :
    validFF (FuzzFile.nest_delim (FuzzFile.new pfEx) 0).1 = true ∧
    validFF (FuzzFile.swap_ranges ffOne []).1 = true :=
  ⟨(C2_reference_validity_amended (FuzzFile.new pfEx) (by decide)).2.2.2.2.2.2.1 0,
   (C2_reference_validity_amended ffOne (by decide)).2.1 []⟩

/-- C3 as stated is false: with `maxDuplications = 1` (which is `< 2`)
and a non-empty range arena, `duplicate_range` is not a no-op returning
false — the guard `max_duplications < 1` lets it through to
`gen_range(1, 1)`, which panics (modelled as `none`). -/
theorem C3_duplicate_range_counterexample :
    FuzzFile.duplicate_range ffOne 0 0 1 = none ∧
    FuzzFile.duplicate_range ffOne 0 0 1 ≠ some (ffOne, false) :=
  ⟨by decide, by decide⟩

/-- C3 amended: `duplicate_range` is a no-op returning false only for
`maxDuplications < 1`; at `maxDuplications = 1` with a non-empty range
arena it aborts (the `gen_range(1, 1)` panic); with `maxDuplications ≥ 2`
it appends `k ∈ [1, maxDuplications)` concatenated copies of the chosen
range, whose final length is its original length times `k + 1`. -/
theorem C3_duplicate_range_amended (ff : FuzzFile) (c k m : Nat) :
    (m < 1 → ff.duplicate_range c k m = some (ff, false)) ∧
    (m = 1 → ff.ranges ≠ [] → ff.duplicate_range c k m = none) ∧
    (2 ≤ m → ff.ranges ≠ [] →
      ∃ i nd, i < ff.ranges.length ∧ 1 ≤ nd ∧ nd < m ∧
        ff.duplicate_range c k m = some ({ ff with
          ranges := ff.ranges.set i ((ff.ranges.getD i []) ++
            (List.replicate nd (ff.ranges.getD i [])).flatten) }, true) ∧
        ((ff.ranges.set i ((ff.ranges.getD i []) ++
          (List.replicate nd (ff.ranges.getD i [])).flatten)).getD i []).length =
          (ff.ranges.getD i []).length * (nd + 1)) := by
  refine ⟨?_, ?_, fun hm hne => duplicate_range_big ff c k m hm hne⟩
  · intro hm
    unfold FuzzFile.duplicate_range
    rw [if_pos hm]
  · intro hm hne
    subst hm
    unfold FuzzFile.duplicate_range
    rw [if_neg (by omega)]
    have hci : chooseIdx ff.ranges c = some (c % ff.ranges.length) := by
      unfold chooseIdx
      rw [if_neg (fun h2 => hne (List.isEmpty_iff.mp h2))]
    rw [hci]
    dsimp only
    have hgr : gen_range 1 1 k = none := by
      unfold gen_range
      rw [if_neg (by omega)]
    rw [hgr]

theorem C3_duplicate_range_amended_witness :
    FuzzFile.duplicate_range ffOne 0 0 0 = some (ffOne, false) ∧
    FuzzFile.duplicate_range ffOne 0 0 1 = none ∧
    (∃ i nd, i < ffOne.ranges.length ∧ 1 ≤ nd ∧ nd < 3 ∧
      FuzzFile.duplicate_range ffOne 0 1 3 = some ({ ffOne with
        ranges := ffOne.ranges.set i ((ffOne.ranges.getD i []) ++
          (List.replicate nd (ffOne.ranges.getD i [])).flatten) }, true) ∧
      ((ffOne.ranges.set i ((ffOne.ranges.getD i []) ++
        (List.replicate nd (ffOne.ranges.getD i [])).flatten)).getD i []).length =
        (ffOne.ranges.getD i []).length * (nd + 1)) :=
  ⟨(C3_duplicate_range_amended ffOne 0 0 0).1 (by omega),
   (C3_duplicate_range_amended ffOne 0 0 1).2.1 rfl (by decide),
   (C3_duplicate_range_amended ffOne 0 1 3).2.2 (by omega) (by decide)⟩

/-- C4: Serialization termination — on a FuzzFile whose references are
valid, the fuel-indexed serializer finishes (returns `some`) once the
fuel exceeds the number of ranges, since the guard marks a range on entry
and clears it on exit so no range re-enters on the active expansion path;
its value is the total serializer's. -/
theorem C4_serialize_termination (ff : FuzzFile) (hv : validFF ff = true) (fuel : Nat)
    (hfuel : ff.ranges.length < fuel) :
    FuzzFile.serializeF ff fuel ([] : Bytes) = some (serializeVec ff) :=
  serializeF_eq ff fuel hfuel []

theorem C4_serialize_termination_witness :
    FuzzFile.serializeF (FuzzFile.new pfEx) 2 ([] : Bytes) =
      some (serializeVec (FuzzFile.new pfEx)) :=
  C4_serialize_termination (FuzzFile.new pfEx) (by decide) 2 (by decide)

/-- C5: Fixed-capacity sink contract — for every FuzzFile and every
slice, whenever serializing into the fixed-capacity sink completes (the
panic-faithful serializer returns rather than aborting on a dangling
reference), it reports at most the slice's capacity as `bytes_written`;
the growable-sink run then completes as well (completion never depends on
the sink), and the written prefix equals the same-length prefix of the
growable sink's output. -/
theorem C5_fixed_capacity_sink_contract (ff : FuzzFile) (slice : Bytes)
    (sl : SliceSerializer)
    (h : FuzzFile.serializeP ff (SliceSerializer.new slice) = some sl) :
    sl.bytes_written ≤ slice.length ∧
    FuzzFile.serializeP ff ([] : Bytes) = some (serializeVec ff) ∧
    sl.slice.take sl.bytes_written = (serializeVec ff).take sl.bytes_written := by
  rw [serializeP_factor] at h
  by_cases hok : FuzzFile.serialize_root_ok ff = true
  · rw [if_pos hok, Option.some.injEq] at h
    subst h
    exact ⟨(slice_contract ff slice).1,
      by rw [serializeP_factor, if_pos hok]; rfl,
      (slice_contract ff slice).2⟩
  · rw [if_neg hok] at h
    exact absurd h Option.noConfusion

theorem C5_fixed_capacity_sink_contract_witness :
    (serializeSlice (FuzzFile.new pfEx) [0, 0, 0]).bytes_written ≤ 3 ∧
    FuzzFile.serializeP (FuzzFile.new pfEx) ([] : Bytes) =
      some (serializeVec (FuzzFile.new pfEx)) ∧
    (serializeSlice (FuzzFile.new pfEx) [0, 0, 0]).slice.take
        (serializeSlice (FuzzFile.new pfEx) [0, 0, 0]).bytes_written =
      (serializeVec (FuzzFile.new pfEx)).take
        (serializeSlice (FuzzFile.new pfEx) [0, 0, 0]).bytes_written :=
  C5_fixed_capacity_sink_contract (FuzzFile.new pfEx) [0, 0, 0]
    (serializeSlice (FuzzFile.new pfEx) [0, 0, 0])
    (by
      rw [serializeP_factor,
        if_pos (serialize_root_ok_of_valid (FuzzFile.new pfEx) (by decide))]
      rfl)

/-- C6: Mutator no-op atomicity — whenever a mutator call reports false
the serialization is unchanged (in fact the file is untouched); in
particular `SwapRanges` reports false when the range arena has fewer than
two entries, and the Delim-targeting mutators report false when no Delim
node exists. -/
theorem C6_mutator_noop_atomicity (ff : FuzzFile) :
    (∀ sa ff2, ff.swap_ranges sa = (ff2, false) → serializeVec ff2 = serializeVec ff) ∧
    (∀ c seeds ff2, ff.shuffle_range c seeds = (ff2, false) →
      serializeVec ff2 = serializeVec ff) ∧
    (∀ c k m ff2, ff.duplicate_range c k m = some (ff2, false) →
      serializeVec ff2 = serializeVec ff) ∧
    (∀ sa ff2, ff.duplicate_root_node sa = some (ff2, false) →
      serializeVec ff2 = serializeVec ff) ∧
    (∀ c ff2, ff.remove_delim c = (ff2, false) → serializeVec ff2 = serializeVec ff) ∧
    (∀ c ff2, ff.swap_delim c = (ff2, false) → serializeVec ff2 = serializeVec ff) ∧
    (∀ c ff2, ff.nest_delim c = (ff2, false) → serializeVec ff2 = serializeVec ff) ∧
    (∀ c ff2, ff.empty_delim c = (ff2, false) → serializeVec ff2 = serializeVec ff) ∧
    (∀ c c2 ds ff2, ff.rand_delim c c2 ds = (ff2, false) →
      serializeVec ff2 = serializeVec ff) ∧
    (ff.ranges.length < 2 → ∀ sa, (ff.swap_ranges sa).2 = false) ∧
    (hasDelim ff.nodes = false → ∀ c c2 ds,
      (ff.remove_delim c).2 = false ∧ (ff.swap_delim c).2 = false ∧
      (ff.nest_delim c).2 = false ∧ (ff.empty_delim c).2 = false ∧
      (ff.rand_delim c c2 ds).2 = false) :=
  ⟨fun sa ff2 h => by rw [swap_ranges_noop ff sa ff2 h],
   fun c seeds ff2 h => by rw [shuffle_range_noop ff c seeds ff2 h],
   fun c k m ff2 h => by rw [duplicate_range_noop ff c k m ff2 h],
   fun sa ff2 h => by rw [duplicate_root_node_noop ff sa ff2 h],
   fun c ff2 h => by rw [remove_delim_noop ff c ff2 h],
   fun c ff2 h => by rw [swap_delim_noop ff c ff2 h],
   fun c ff2 h => by rw [nest_delim_noop ff c ff2 h],
   fun c ff2 h => by rw [empty_delim_noop ff c ff2 h],
   fun c c2 ds ff2 h => by rw [rand_delim_noop ff c c2 ds ff2 h],
   fun h sa => swap_ranges_false_of_short ff sa h,
   fun h c c2 ds =>
     ⟨remove_delim_false_of_no_delim ff c h, swap_delim_false_of_no_delim ff c h,
      nest_delim_false_of_no_delim ff c h, empty_delim_false_of_no_delim ff c h,
      rand_delim_false_of_no_delim ff c c2 ds h⟩⟩

theorem C6_mutator_noop_atomicity_witness :
    serializeVec (FuzzFile.swap_ranges ffOne []).1 = serializeVec ffOne ∧
    (FuzzFile.remove_delim ffOne 0).2 = false :=
  ⟨(C6_mutator_noop_atomicity ffOne).1 [] (FuzzFile.swap_ranges ffOne []).1
    (by decide),
   ((C6_mutator_noop_atomicity ffOne).2.2.2.2.2.2.2.2.2.2 (by decide) 0 0 []).1⟩

/-- C7: Whitespace tokenization — under the grammar with delimiter pair
`("<<", ">>")`, no breakers, and whitespace pattern `" "`, the input
`1 2 3` parses to exactly five Token leaves `"1"`, `" "`, `"2"`, `" "`,
`"3"`: each whitespace match emits the (non-empty) preceding prefix and
then the matched pattern itself. -/
theorem C7_whitespace_tokenization :
    slurp gWS [49, 32, 50, 32, 51] = some ⟨[0, 1, 2, 3, 4],
      [.Token [49], .Token [32], .Token [50], .Token [32], .Token [51]], []⟩ := by
  decide

/-- C8 as stated is false: a grammar with an empty tokenizer pattern
makes `scan_next` fire at offset 0 consuming nothing, so `slurp` never
terminates on the one-byte input `1` (no amount of fuel finishes the
loop). -/
theorem C8_parser_totality_counterexample : slurpDiverges gEmptyTok [49] :=
  fun fuel => slurpF_gEmptyTok_none fuel TreeBuilder.new

/-- C8 amended: for every grammar whose delimiter open/close and
tokenizer patterns are all non-empty (breakers are suppressed at offset 0
of the scan), `slurp` terminates on every byte buffer; for the empty
buffer the resulting root, node and range arenas are empty. -/
theorem C8_parser_totality_amended (g : Grammar) (buf : Bytes)
    (h : nonemptyPatterns g = true) :
    (slurp g buf).isSome ∧ slurp g [] = some ⟨[], [], []⟩ :=
  ⟨slurp_total g h buf, rfl⟩

theorem C8_parser_totality_amended_witness :
    (slurp gDelims [49, 60, 60, 50]).isSome ∧ slurp gDelims [] = some ⟨[], [], []⟩ :=
  C8_parser_totality_amended gDelims [49, 60, 60, 50] (by decide)

/-- C9: Delim close matching — `end_recurse` pops the top stack frame iff
the frame's expected close pattern is byte-equal to the matched close:
on a pop the frame's accumulated range is installed and a `Delim` node is
appended whose close is exactly the matched pattern; on a mismatch (or an
empty stack) the matched close is emitted as a plain `Token` leaf and the
stack is untouched. -/
theorem C9_delim_close_matching (b : TreeBuilder) (e : Bytes) :
    (∀ f fs, b.stack = f :: fs → f.end_pattern = e →
      (b.end_recurse e).nodes =
        b.nodes ++ [Node.Delim f.start_pattern b.ranges.length e] ∧
      (b.end_recurse e).ranges = b.ranges ++ [f.range] ∧
      (b.end_recurse e).stack.length = fs.length) ∧
    ((b.stack = [] ∨ ∀ f fs, b.stack = f :: fs → f.end_pattern ≠ e) →
      (b.end_recurse e).nodes =
        b.nodes ++ (if e.isEmpty then [] else [Node.Token e]) ∧
      (b.end_recurse e).ranges = b.ranges ∧
      (b.end_recurse e).stack.length = b.stack.length) := by
  constructor
  · intro f fs hst hfe
    have hsome : b.state_with_end_pattern e = some (f, { b with stack := fs }) := by
      simp [TreeBuilder.state_with_end_pattern, hst, hfe]
    have hred : b.end_recurse e =
        TreeBuilder.add_node_ref
          { b with
            nodes := b.nodes ++ [Node.Delim f.start_pattern b.ranges.length e],
            ranges := b.ranges ++ [f.range],
            stack := fs }
          b.nodes.length := by
      rw [TreeBuilder.end_recurse, hsome]
      rfl
    obtain ⟨ha1, ha2, ha3, _⟩ := add_node_ref_props
      { b with
        nodes := b.nodes ++ [Node.Delim f.start_pattern b.ranges.length e],
        ranges := b.ranges ++ [f.range],
        stack := fs }
      b.nodes.length
    rw [hred]
    exact ⟨ha1, ha2, ha3⟩
  · intro hmiss
    have hnone : b.state_with_end_pattern e = none := by
      rcases hmiss with h1 | h1
      · simp [TreeBuilder.state_with_end_pattern, h1]
      · cases hst : b.stack with
        | nil => simp [TreeBuilder.state_with_end_pattern, hst]
        | cons f fs =>
            simp [TreeBuilder.state_with_end_pattern, hst, h1 f fs hst]
    have hred : b.end_recurse e = b.push_token e := by
      rw [TreeBuilder.end_recurse, hnone]
    rw [hred]
    by_cases hemp : e.isEmpty
    · have ht : e = [] := List.isEmpty_iff.mp hemp
      subst ht
      have hid : b.push_token [] = b := rfl
      rw [hid]
      exact ⟨by simp, rfl, rfl⟩
    · rw [if_neg hemp]
      simp only [TreeBuilder.push_token, if_neg hemp, TreeBuilder.push_node]
      obtain ⟨ha1, ha2, ha3, _⟩ := add_node_ref_props
        { b with nodes := b.nodes ++ [Node.Token e] } b.nodes.length
      exact ⟨ha1, ha2, ha3⟩

theorem C9_delim_close_matching_witness :
    (TreeBuilder.end_recurse ⟨[], [], [], [⟨[60, 60], [62, 62], []⟩]⟩ [62, 62]).nodes =
      [] ++ [Node.Delim [60, 60] 0 [62, 62]] ∧
    (TreeBuilder.end_recurse ⟨[], [], [], [⟨[60, 60], [62, 62], []⟩]⟩ [62, 62]).ranges =
      [] ++ [[]] ∧
    (TreeBuilder.end_recurse ⟨[], [], [], [⟨[60, 60], [62, 62], []⟩]⟩
      [62, 62]).stack.length = ([] : List SlurpState).length :=
  (C9_delim_close_matching ⟨[], [], [], [⟨[60, 60], [62, 62], []⟩]⟩ [62, 62]).1
    ⟨[60, 60], [62, 62], []⟩ [] rfl rfl

/-- C10: `shuffle_range` reports a modification iff the range arena is
non-empty, even when the applied permutation is the identity; hence for
some inputs and PRNG draws `fuzz_one` emits a variant whose serialization
is byte-identical to the unmutated input (here: shuffling the singleton
range of the parse of `1<<2>>3`). -/
theorem C10_shuffle_reports_unconditionally :
    (∀ (ff : FuzzFile) (c : Nat) (seeds : List Nat),
      (ff.shuffle_range c seeds).2 = true ↔ ff.ranges ≠ []) ∧
    (fuzz_one pfEx ⟨1, 2, [.ShuffleRanges], []⟩ [⟨0, 0, 0, []⟩] =
      some (some (FuzzFile.new pfEx)) ∧
     serializeVec (FuzzFile.new pfEx) = [49, 60, 60, 50, 62, 62, 51]) := by
  refine ⟨shuffle_range_snd_iff, by decide, ?_⟩
  have h1 := serializeF_eq (FuzzFile.new pfEx) 2 (by decide) ([] : Bytes)
  have h2 : FuzzFile.serializeF (FuzzFile.new pfEx) 2 ([] : Bytes) =
      some [49, 60, 60, 50, 62, 62, 51] := by decide
  rw [h1] at h2
  exact Option.some_inj.mp h2

end Shft
